import Mathlib

/-!
Chart tracker dispatcher.

A verification development for `cmd/chart-tracker/dispatcher.go` and the
accessors of `internal/hub/hub.go` it calls.

Modelling conventions.

* A Go `error` is the message it carries (`Error := String`); a Go call
  returning `(v, err)` whose `v` is only used when `err == nil` is an
  `Except Error _`.
* The database behind `hub.Hub`, the helm index loader behind
  `loadIndexFile` and the rate limiter are not part of the sources: the
  results of the calls are parameters (`HubApi`, `Env`).
* `map[string]string` is a partial function `String → Option String`; the Go
  index expression `m[k]` yields the zero value `""` for an absent key.
* `indexFile.Entries` is a Go map from chart name to its versions.  The model
  holds the groups as the list in which the `range` statement of the scan
  visits them.
* `ctx.Done()` is observed through checkpoints; a scan gets the answers of
  its successive `select` statements as a function of the number of entries
  processed so far.
-/

namespace ChartTracker

/-- The message carried by a Go `error`. -/
abbrev Error := String

/-- The fields of `chart.Metadata` the dispatcher reads. -/
structure Metadata where
  Name : String
  Version : String
deriving DecidableEq, Repr

/-- The fields of `repo.ChartVersion` the dispatcher reads. -/
structure ChartVersion where
  Metadata : Metadata
  Digest : String
deriving DecidableEq, Repr

/-- The fields of `hub.ChartRepository` the dispatcher reads. -/
structure ChartRepository where
  ChartRepositoryID : String
  Name : String
  URL : String
deriving DecidableEq, Repr

/-- The `job` struct of dispatcher.go: a chart version to process in a
repository. -/
structure job where
  repo : ChartRepository
  chartVersion : ChartVersion
deriving DecidableEq, Repr

/-- The `repo.IndexFile` value: `Entries`, in the order the scan ranges over
the groups. -/
structure IndexFile where
  Entries : List (String × List ChartVersion)

/-- A Go `map[string]string`. -/
abbrev DigestMap := String → Option String

/-- The Go index expression `m[k]`: the stored value, or the zero value `""`
when the key is absent. -/
def DigestMap.index (m : DigestMap) (k : String) : String :=
  match m k with
  | some v => v
  | none => ""

/-- The results of the `hub.Hub` accessors used by the dispatcher. -/
structure HubApi where
  GetChartRepositoryByName : String → Except Error ChartRepository
  GetChartRepositories : Except Error (List ChartRepository)
  GetChartRepositoryPackagesDigest : String → Except Error DigestMap

/-- The collaborators of a dispatcher: the hub API and the index loader
(`loadIndexFile`, by repository URL). -/
structure Env where
  hubApi : HubApi
  loadIndexFile : String → Except Error IndexFile

/-- The key `fmt.Sprintf("%s@%s", Metadata.Name, Metadata.Version)`. -/
def chartKey (cv : ChartVersion) : String :=
  cv.Metadata.Name ++ "@" ++ cv.Metadata.Version

/-! ## getRepositories -/

/-- A call made on the hub API while resolving repositories. -/
inductive HubCall where
  | byName (name : String)
  | all
deriving DecidableEq, Repr

/-- The result of `getRepositories`: the Go pair `(repos, err)` and the hub
calls made, in order. -/
structure ReposResult where
  repos : List ChartRepository
  err : Option Error
  calls : List HubCall
deriving DecidableEq, Repr

/-- The `for _, name := range names` loop of `getRepositories`: `repos` is
the slice accumulated so far, `calls` the hub calls made so far. -/
def getRepositoriesLoop (h : HubApi) :
    List String → List ChartRepository → List HubCall → ReposResult
  | [], repos, calls => { repos := repos, err := none, calls := calls }
  | name :: rest, repos, calls =>
    match h.GetChartRepositoryByName name with
    | .error e => { repos := [], err := some e, calls := calls ++ [HubCall.byName name] }
    | .ok r => getRepositoriesLoop h rest (repos ++ [r]) (calls ++ [HubCall.byName name])

/-- The method `dispatcher.getRepositories`. -/
def getRepositories (h : HubApi) (names : List String) : ReposResult :=
  if names.length > 0 then
    getRepositoriesLoop h names [] []
  else
    match h.GetChartRepositories with
    | .error e => { repos := [], err := some e, calls := [HubCall.all] }
    | .ok repos => { repos := repos, err := none, calls := [HubCall.all] }

/-! ## trackRepositoryCharts, as a function of the checkpoint answers -/

/-- What one run of `trackRepositoryCharts` did: the jobs sent to the Queue
in order, the errors logged, and the number of `select` checkpoints passed. -/
structure ScanResult where
  jobs : List job
  errors : List String
  checks : Nat
deriving DecidableEq, Repr

/-- The state of the loops of a scan: jobs sent so far, entries processed so
far, and whether the function has returned from inside the loop. -/
structure LoopState where
  jobs : List job
  checks : Nat
  returned : Bool
deriving DecidableEq, Repr

/-- The body of the inner loop up to the `select`: send a job when the
digest differs from the stored one. -/
def sendIfChanged (r : ChartRepository) (pd : DigestMap) (cv : ChartVersion) : List job :=
  if cv.Digest ≠ pd.index (chartKey cv) then [{ repo := r, chartVersion := cv }] else []

/-- The loop `for _, chartVersion := range chartVersions`.  `n` counts the
entries processed before; `ctxDone k` tells whether the `select` after the
`k`-th entry finds `ctx.Done()` ready. -/
def innerLoop (r : ChartRepository) (pd : DigestMap) (ctxDone : Nat → Bool) :
    List ChartVersion → Nat → LoopState
  | [], n => { jobs := [], checks := n, returned := false }
  | cv :: rest, n =>
    let sent := sendIfChanged r pd cv
    if ctxDone (n + 1) then
      { jobs := sent, checks := n + 1, returned := true }
    else
      let s := innerLoop r pd ctxDone rest (n + 1)
      { s with jobs := sent ++ s.jobs }

/-- The loop `for _, chartVersions := range indexFile.Entries`. -/
def outerLoop (r : ChartRepository) (pd : DigestMap) (ctxDone : Nat → Bool) :
    List (String × List ChartVersion) → Nat → LoopState
  | [], n => { jobs := [], checks := n, returned := false }
  | g :: gs, n =>
    let s := innerLoop r pd ctxDone g.2 n
    if s.returned then s
    else
      let t := outerLoop r pd ctxDone gs s.checks
      { t with jobs := s.jobs ++ t.jobs }

/-- The method `dispatcher.trackRepositoryCharts`, the sends on the Queue
being accepted. -/
def trackRepositoryCharts (env : Env) (ctxDone : Nat → Bool) (r : ChartRepository) :
    ScanResult :=
  match env.loadIndexFile r.URL with
  | .error _ =>
    { jobs := [], errors := ["Error loading repository index file"], checks := 0 }
  | .ok indexFile =>
    match env.hubApi.GetChartRepositoryPackagesDigest r.ChartRepositoryID with
    | .error _ =>
      { jobs := [], errors := ["Error getting repository packages digest"], checks := 0 }
    | .ok packagesDigest =>
      let s := outerLoop r packagesDigest ctxDone indexFile.Entries 0
      { jobs := s.jobs, errors := [], checks := s.checks }

/-- The index entries in the order the scan visits them. -/
def IndexFile.flat (idx : IndexFile) : List ChartVersion :=
  (idx.Entries.map (fun g => g.2)).flatten

/-- A context that is never done. -/
def neverDone : Nat → Bool := fun _ => false

/-- The jobs a full pass over `es` sends: the entries whose digest differs
from the stored one, in order. -/
def jobsFor (r : ChartRepository) (pd : DigestMap) (es : List ChartVersion) : List job :=
  (es.filter (fun cv => decide (cv.Digest ≠ pd.index (chartKey cv)))).map
    (fun cv => { repo := r, chartVersion := cv })

/-! ## dispatcher.run, as a machine of concurrent tasks

The coordinator (`run`) and the scans it starts with `go` are tasks that a
scheduler interleaves.  A schedule is a list of choices: let the coordinator
take its next step, let the `i`-th started scan take its next step, or cancel
the context.  A choice that names a task which cannot move (the coordinator
blocked in `wgRepos.Wait()`, a task that has returned, an index out of range)
leaves the state unchanged.

* A send on the Queue is a step of the sending scan: the workers are taken to
  accept every job offered.
* `limiter.Wait(d.ctx)` fails exactly when the context is done at that step.
* The nested `range` loops of a scan are one pass over `IndexFile.flat`
  (`outerLoop_eq_innerLoop` relates the two).
-/

/-- What happens during an execution, in order. -/
inductive Event where
  /-- A call of `log.Error()`, with its message. -/
  | logError (msg : String)
  /-- The statement `go d.trackRepositoryCharts(&wgRepos, r)` starting scan `i`. -/
  | scanStart (i : Nat)
  /-- The send `d.Queue <- &job{...}` completed by scan `i`. -/
  | send (i : Nat) (j : job)
  /-- Scan `i` returns, running its deferred `wg.Done()`. -/
  | scanReturn (i : Nat)
  /-- The statement `close(d.Queue)`. -/
  | close
  /-- The deferred `wg.Done()` of `run`: the run signals its completion. -/
  | runDone
deriving DecidableEq, Repr

/-- Where a scan stands in `trackRepositoryCharts`. -/
inductive ScanPC where
  /-- Before `loadIndexFile(r.URL)`. -/
  | loading
  /-- Before `GetChartRepositoryPackagesDigest`, the index loaded. -/
  | digesting (indexFile : IndexFile)
  /-- At the head of the loops, `rest` being the entries still to visit. -/
  | ranging (packagesDigest : DigestMap) (rest : List ChartVersion)
  /-- At the `select` after an entry. -/
  | selecting (packagesDigest : DigestMap) (rest : List ChartVersion)
  /-- After the function returned. -/
  | returned

/-- Whether the scan has returned. -/
def ScanPC.isReturned : ScanPC → Bool
  | .returned => true
  | _ => false

/-- A started scan: its repository and where it stands. -/
structure ScanTask where
  repo : ChartRepository
  pc : ScanPC

/-- Where the coordinator stands in `run`. -/
inductive RunPC where
  /-- Before `d.getRepositories(reposNames)`. -/
  | resolving
  /-- At the head of `for _, r := range repos`, `repos` still to start. -/
  | launching (repos : List ChartRepository)
  /-- In `wgRepos.Wait()`. -/
  | waiting
  /-- After the function returned. -/
  | returned

/-- Whether `run` has returned. -/
def RunPC.isReturned : RunPC → Bool
  | .returned => true
  | _ => false

/-- The state of an execution of `run`. -/
structure State where
  pc : RunPC
  scans : List ScanTask
  wgRepos : Nat
  ctxDone : Bool
  trace : List Event

/-- A scheduling choice. -/
inductive Choice where
  | run
  | scan (i : Nat)
  | cancel
deriving DecidableEq, Repr

/-- The state when `run` is called. -/
def State.init : State :=
  { pc := .resolving, scans := [], wgRepos := 0, ctxDone := false, trace := [] }

/-- One step of scan `i`: the new task and the events of the step. -/
def scanStep (env : Env) (ctxDone : Bool) (i : Nat) (t : ScanTask) : ScanTask × List Event :=
  match t.pc with
  | .loading =>
    match env.loadIndexFile t.repo.URL with
    | .error _ =>
      ({ t with pc := .returned },
        [Event.logError "Error loading repository index file", Event.scanReturn i])
    | .ok indexFile => ({ t with pc := .digesting indexFile }, [])
  | .digesting indexFile =>
    match env.hubApi.GetChartRepositoryPackagesDigest t.repo.ChartRepositoryID with
    | .error _ =>
      ({ t with pc := .returned },
        [Event.logError "Error getting repository packages digest", Event.scanReturn i])
    | .ok packagesDigest => ({ t with pc := .ranging packagesDigest indexFile.flat }, [])
  | .ranging _ [] => ({ t with pc := .returned }, [Event.scanReturn i])
  | .ranging packagesDigest (cv :: rest) =>
    ({ t with pc := .selecting packagesDigest rest },
      (sendIfChanged t.repo packagesDigest cv).map (Event.send i))
  | .selecting packagesDigest rest =>
    if ctxDone then ({ t with pc := .returned }, [Event.scanReturn i])
    else ({ t with pc := .ranging packagesDigest rest }, [])
  | .returned => (t, [])

/-- One step of the coordinator. -/
def runStep (env : Env) (names : List String) (s : State) : State :=
  match s.pc with
  | .resolving =>
    let res := getRepositories env.hubApi names
    match res.err with
    | some _ =>
      { s with pc := .returned,
               trace := s.trace ++ [Event.logError "Error getting repositories", Event.runDone] }
    | none => { s with pc := .launching res.repos }
  | .launching [] => { s with pc := .waiting }
  | .launching (r :: rest) =>
    if s.ctxDone then
      { s with pc := .returned,
               trace := s.trace ++ [Event.logError "Error waiting for limiter", Event.runDone] }
    else
      { s with pc := .launching rest,
               wgRepos := s.wgRepos + 1,
               scans := s.scans ++ [{ repo := r, pc := .loading }],
               trace := s.trace ++ [Event.scanStart s.scans.length] }
  | .waiting =>
    if s.wgRepos = 0 then
      { s with pc := .returned, trace := s.trace ++ [Event.close, Event.runDone] }
    else s
  | .returned => s

/-- One step of the machine under a scheduling choice. -/
def step (env : Env) (names : List String) (s : State) : Choice → State
  | .run => runStep env names s
  | .cancel => { s with ctxDone := true }
  | .scan i =>
    match s.scans[i]? with
    | none => s
    | some t =>
      let res := scanStep env s.ctxDone i t
      { s with scans := s.scans.set i res.1,
               wgRepos := if !t.pc.isReturned && res.1.pc.isReturned then s.wgRepos - 1
                          else s.wgRepos,
               trace := s.trace ++ res.2 }

/-- The state reached from `s` under a schedule. -/
def runFrom (env : Env) (names : List String) (s : State) : List Choice → State
  | [] => s
  | c :: cs => runFrom env names (step env names s c) cs

/-- The state reached by `run` under a schedule. -/
def exec (env : Env) (names : List String) (sched : List Choice) : State :=
  runFrom env names State.init sched

/-- Nothing can move any more: `run` and every started scan have returned. -/
def State.quiescent (s : State) : Bool :=
  s.pc.isReturned && s.scans.all (fun t => t.pc.isReturned)

/-- The jobs scan `i` sent, in order. -/
def sentBy (i : Nat) (tr : List Event) : List job :=
  tr.filterMap (fun ev =>
    match ev with
    | Event.send k j => if k = i then some j else none
    | _ => none)

/-- All the jobs sent to the Queue, in order. -/
def sent (tr : List Event) : List job :=
  tr.filterMap (fun ev =>
    match ev with
    | Event.send _ j => some j
    | _ => none)

/-- The events a scan produces: sends, its return, and the errors it logs. -/
def isScanEvent : Event → Bool
  | Event.send _ _ => true
  | Event.scanReturn _ => true
  | Event.logError msg =>
    msg = "Error loading repository index file" || msg = "Error getting repository packages digest"
  | _ => false

/-- The jobs a scan standing at `t.pc` still sends if it is not cancelled. -/
def remaining (env : Env) (t : ScanTask) : List job :=
  match t.pc with
  | .loading => (trackRepositoryCharts env neverDone t.repo).jobs
  | .digesting indexFile =>
    match env.hubApi.GetChartRepositoryPackagesDigest t.repo.ChartRepositoryID with
    | .error _ => []
    | .ok packagesDigest => jobsFor t.repo packagesDigest indexFile.flat
  | .ranging packagesDigest rest => jobsFor t.repo packagesDigest rest
  | .selecting packagesDigest rest => jobsFor t.repo packagesDigest rest
  | .returned => []

/-- The schedule contains no cancellation. -/
def uncancelled (sched : List Choice) : Prop := Choice.cancel ∉ sched

/-- The count kept by `wgRepos` is the number of started scans that have not
returned. -/
def wgInv (s : State) : Prop :=
  s.wgRepos = s.scans.countP (fun t => !t.pc.isReturned)

/-- The start and return events agree with the list of scans. -/
def eventsInv (s : State) : Prop :=
  (∀ i, Event.scanStart i ∈ s.trace → i < s.scans.length) ∧
  (∀ i t, s.scans[i]? = some t → t.pc.isReturned = true → Event.scanReturn i ∈ s.trace)

/-- The jobs sent by a scan and those it still has to send make up the jobs
of its uncancelled sequential run, unless it returned early on cancellation,
in which case it sent a prefix of them. -/
def sendsInv (env : Env) (s : State) : Prop :=
  (∀ i, s.scans.length ≤ i → sentBy i s.trace = []) ∧
  (∀ i t, s.scans[i]? = some t →
    sentBy i s.trace ++ remaining env t = (trackRepositoryCharts env neverDone t.repo).jobs ∨
    (t.pc.isReturned = true ∧ s.ctxDone = true ∧
      sentBy i s.trace <+: (trackRepositoryCharts env neverDone t.repo).jobs))

/-- The events that happen while the coordinator has not returned: those of
the scans, and the starts of scans. -/
def isOpenEvent : Event → Bool
  | Event.scanStart _ => true
  | ev => isScanEvent ev

/-- The shape of the trace and of the list of scans, by where the
coordinator stands.  Once it has returned, the run ended in one of three
ways: the resolution failed, a `limiter.Wait` failed, or the Queue was
closed. -/
def shapeInv (env : Env) (names : List String) (s : State) : Prop :=
  match s.pc with
  | .resolving => s.trace = [] ∧ s.scans = []
  | .launching rest =>
    (getRepositories env.hubApi names).err = none ∧
    s.scans.map (fun t => t.repo) ++ rest = (getRepositories env.hubApi names).repos ∧
    ∀ ev ∈ s.trace, isOpenEvent ev = true
  | .waiting =>
    (getRepositories env.hubApi names).err = none ∧
    s.scans.map (fun t => t.repo) = (getRepositories env.hubApi names).repos ∧
    ∀ ev ∈ s.trace, isOpenEvent ev = true
  | .returned =>
    (∃ e, (getRepositories env.hubApi names).err = some e ∧ s.scans = [] ∧
      s.trace = [Event.logError "Error getting repositories", Event.runDone]) ∨
    ((getRepositories env.hubApi names).err = none ∧ s.ctxDone = true ∧
      (∃ r rest, s.scans.map (fun t => t.repo) ++ r :: rest
        = (getRepositories env.hubApi names).repos) ∧
      ∃ pre post,
        s.trace = pre ++ [Event.logError "Error waiting for limiter", Event.runDone] ++ post ∧
        (∀ ev ∈ pre, isOpenEvent ev = true) ∧ (∀ ev ∈ post, isScanEvent ev = true)) ∨
    ((getRepositories env.hubApi names).err = none ∧ s.quiescent = true ∧
      s.scans.map (fun t => t.repo) = (getRepositories env.hubApi names).repos ∧
      ∃ pre, s.trace = pre ++ [Event.close, Event.runDone] ∧
        (∀ ev ∈ pre, isOpenEvent ev = true) ∧
        ∀ i, i < s.scans.length → Event.scanReturn i ∈ pre)

/-- A bound on the number of steps scan `t` can still take. -/
def ScanTask.fuel (env : Env) (t : ScanTask) : Nat :=
  match t.pc with
  | .loading =>
    match env.loadIndexFile t.repo.URL with
    | .error _ => 1
    | .ok indexFile => 2 * indexFile.flat.length + 3
  | .digesting indexFile => 2 * indexFile.flat.length + 2
  | .ranging _ rest => 2 * rest.length + 1
  | .selecting _ rest => 2 * rest.length + 2
  | .returned => 0

/-- A bound on the number of steps of a scan of repository `r` and of the
step that starts it. -/
def launchFuel (env : Env) (r : ChartRepository) : Nat :=
  1 + ScanTask.fuel env { repo := r, pc := .loading }

/-- A bound on the number of steps the coordinator can still take, with
those of the scans it will start. -/
def RunPC.fuel (env : Env) (names : List String) : RunPC → Nat
  | .resolving => (((getRepositories env.hubApi names).repos).map (launchFuel env)).sum + 3
  | .launching rest => (rest.map (launchFuel env)).sum + 2
  | .waiting => 1
  | .returned => 0

/-- A bound on the number of effective steps left in a state. -/
def State.fuel (env : Env) (names : List String) (s : State) : Nat :=
  s.pc.fuel env names + (s.scans.map (ScanTask.fuel env)).sum

/-- The invariants of the machine together. -/
structure Inv (env : Env) (names : List String) (s : State) : Prop where
  wg : wgInv s
  events : eventsInv s
  sends : sendsInv env s
  shape : shapeInv env names s

/-! ## Concrete scenarios -/

def repoA : ChartRepository := { ChartRepositoryID := "id-a", Name := "a", URL := "https://a" }

def foo100 : ChartVersion := { Metadata := { Name := "foo", Version := "1.0.0" }, Digest := "aaa" }

def foo110 : ChartVersion := { Metadata := { Name := "foo", Version := "1.1.0" }, Digest := "bbb" }

def knownFoo : DigestMap := fun k => if k = "foo@1.0.0" then some "aaa" else none

def envFoo : Env :=
  { hubApi :=
      { GetChartRepositoryByName := fun _ => .ok repoA
        GetChartRepositories := .ok [repoA]
        GetChartRepositoryPackagesDigest := fun _ => .ok knownFoo }
    loadIndexFile := fun _ => .ok { Entries := [("foo", [foo100, foo110])] } }

def repoB : ChartRepository := { ChartRepositoryID := "id-b", Name := "b", URL := "https://b" }

/-- Two repositories: the index of `repoB` fails to load, `repoA` offers
`foo@1.0.0` (known, unchanged) and `foo@1.1.0` (new). -/
def envTwo : Env :=
  { hubApi :=
      { GetChartRepositoryByName := fun n =>
          if n = "a" then .ok repoA else if n = "b" then .ok repoB else .error "not found"
        GetChartRepositories := .ok [repoB, repoA]
        GetChartRepositoryPackagesDigest := fun _ => .ok knownFoo }
    loadIndexFile := fun u =>
      if u = "https://a" then .ok { Entries := [("foo", [foo100, foo110])] }
      else .error "unreachable" }

/-- A schedule that runs everything to completion without cancellation. -/
def schedTwo : List Choice :=
  [.run, .run, .run, .scan 0, .scan 1, .scan 1, .run, .scan 1, .scan 1, .scan 1, .scan 1,
   .scan 1, .run, .run]

/-- A schedule for the names `a`, `b` that cancels the context once the
scan of the first repository has started and passed its first checkpoint,
while the coordinator is about to wait on the limiter for the second; the
coordinator and the scan then run until they return. -/
def schedCancel : List Choice :=
  [.run, .run, .scan 0, .scan 0, .scan 0, .scan 0, .cancel, .run, .scan 0, .scan 0]

/-- A schedule that cancels the context once both scans were started, and
runs everything to its return. -/
def schedLateCancel : List Choice :=
  [.run, .run, .run, .cancel, .run, .scan 0, .scan 1, .scan 1, .scan 1, .scan 1, .run]

/-- The known digests of a repository for which nothing is registered. -/
def noDigests : DigestMap := fun _ => none

/-- An index entry that carries no digest (`digest` is optional in an index
file). -/
def fooNoDigest : ChartVersion := { Metadata := { Name := "foo", Version := "2.0.0" }, Digest := "" }

/-- A repository whose index lists `fooNoDigest` and for which nothing has
been registered yet. -/
def envNoDigest : Env :=
  { hubApi :=
      { GetChartRepositoryByName := fun _ => .ok repoA
        GetChartRepositories := .ok [repoA]
        GetChartRepositoryPackagesDigest := fun _ => .ok noDigests }
    loadIndexFile := fun _ => .ok { Entries := [("foo", [fooNoDigest])] } }

/-- The stored digest of `foo@1.1.0` is an older one. -/
def knownOld : DigestMap := fun k => if k = "foo@1.1.0" then some "old" else none

def envChanged : Env :=
  { hubApi :=
      { GetChartRepositoryByName := fun _ => .ok repoA
        GetChartRepositories := .ok [repoA]
        GetChartRepositoryPackagesDigest := fun _ => .ok knownOld }
    loadIndexFile := fun _ => .ok { Entries := [("foo", [foo100, foo110])] } }

/-- The context is found done at the checkpoint after the first entry. -/
def doneAtFirst : Nat → Bool := fun k => decide (1 ≤ k)

/-- The events of `exec envTwo [] schedTwo` before the close of the Queue. -/
def traceTwoOpen : List Event :=
  [Event.scanStart 0, Event.scanStart 1,
   Event.logError "Error loading repository index file", Event.scanReturn 0,
   Event.send 1 { repo := repoA, chartVersion := foo110 }, Event.scanReturn 1]

/-! ## Lemmas on the scan loops -/

theorem jobsFor_nil (r : ChartRepository) (pd : DigestMap) : jobsFor r pd [] = [] := rfl

theorem jobsFor_cons (r : ChartRepository) (pd : DigestMap) (cv : ChartVersion)
    (es : List ChartVersion) :
    jobsFor r pd (cv :: es) = sendIfChanged r pd cv ++ jobsFor r pd es := by
  unfold jobsFor sendIfChanged
  by_cases h : cv.Digest = pd.index (chartKey cv)
  · simp [List.filter_cons, h]
  · simp [List.filter_cons, h]

theorem jobsFor_append (r : ChartRepository) (pd : DigestMap) (a b : List ChartVersion) :
    jobsFor r pd (a ++ b) = jobsFor r pd a ++ jobsFor r pd b := by
  simp [jobsFor]

theorem mem_jobsFor {r : ChartRepository} {pd : DigestMap} {es : List ChartVersion} {j : job} :
    j ∈ jobsFor r pd es ↔
      j.repo = r ∧ j.chartVersion ∈ es ∧
        j.chartVersion.Digest ≠ pd.index (chartKey j.chartVersion) := by
  unfold jobsFor
  constructor
  · intro h
    obtain ⟨cv, hcv, rfl⟩ := List.mem_map.1 h
    obtain ⟨hmem, hne⟩ := List.mem_filter.1 hcv
    exact ⟨rfl, hmem, by simpa using hne⟩
  · rintro ⟨hr, hmem, hne⟩
    refine List.mem_map.2 ⟨j.chartVersion, List.mem_filter.2 ⟨hmem, by simpa using hne⟩, ?_⟩
    cases j
    simp_all

theorem jobsFor_length_le (r : ChartRepository) (pd : DigestMap) (es : List ChartVersion) :
    (jobsFor r pd es).length ≤ es.length := by
  unfold jobsFor
  rw [List.length_map]
  exact List.length_filter_le _ _

theorem jobsFor_count (r : ChartRepository) (pd : DigestMap) (es : List ChartVersion)
    (e : ChartVersion) (h : e.Digest ≠ pd.index (chartKey e)) :
    (jobsFor r pd es).count { repo := r, chartVersion := e } = es.count e := by
  induction es with
  | nil => rfl
  | cons cv es ih =>
    rw [jobsFor_cons, List.count_append, ih, List.count_cons]
    unfold sendIfChanged
    by_cases hcv : cv = e
    · subst hcv
      simp [h, Nat.add_comm]
    · have hne : ¬ (({ repo := r, chartVersion := cv } : job) = { repo := r, chartVersion := e }) := by
        intro hj
        exact hcv (congrArg job.chartVersion hj)
      by_cases hd : cv.Digest = pd.index (chartKey cv)
      · simp [hd, hcv]
      · simp [hd, hcv, hne, List.count_cons]

/-- The inner loop over `a ++ b` is the inner loop over `a`, continued over
`b` unless it returned. -/
theorem innerLoop_append (r : ChartRepository) (pd : DigestMap) (ctxDone : Nat → Bool)
    (a b : List ChartVersion) (n : Nat) :
    innerLoop r pd ctxDone (a ++ b) n =
      if (innerLoop r pd ctxDone a n).returned then innerLoop r pd ctxDone a n
      else
        { innerLoop r pd ctxDone b (innerLoop r pd ctxDone a n).checks with
          jobs := (innerLoop r pd ctxDone a n).jobs
            ++ (innerLoop r pd ctxDone b (innerLoop r pd ctxDone a n).checks).jobs } := by
  induction a generalizing n with
  | nil => simp [innerLoop]
  | cons cv a ih =>
    rw [List.cons_append, innerLoop, innerLoop]
    by_cases hc : ctxDone (n + 1) = true
    · simp [hc]
    · simp only [hc, Bool.false_eq_true, if_false]
      rw [ih (n + 1)]
      by_cases hr : (innerLoop r pd ctxDone a (n + 1)).returned = true
      · simp [hr]
      · simp [hr, List.append_assoc]

/-- The nested loops visit the entries as one loop over the flattened index. -/
theorem outerLoop_eq_innerLoop (r : ChartRepository) (pd : DigestMap) (ctxDone : Nat → Bool)
    (gs : List (String × List ChartVersion)) (n : Nat) :
    outerLoop r pd ctxDone gs n
      = innerLoop r pd ctxDone ((gs.map (fun g => g.2)).flatten) n := by
  induction gs generalizing n with
  | nil => simp [outerLoop, innerLoop]
  | cons g gs ih =>
    simp only [outerLoop, List.map_cons, List.flatten_cons]
    rw [innerLoop_append, ih]

/-- Every job the loop sends is for an entry of the list whose digest differs
from the stored one, whatever the checkpoints answer. -/
theorem innerLoop_jobs_sublist (r : ChartRepository) (pd : DigestMap) (ctxDone : Nat → Bool)
    (es : List ChartVersion) (n : Nat) :
    (innerLoop r pd ctxDone es n).jobs <+: jobsFor r pd es := by
  induction es generalizing n with
  | nil => simp [innerLoop, jobsFor]
  | cons cv es ih =>
    simp only [innerLoop, jobsFor_cons]
    by_cases hc : ctxDone (n + 1) = true
    · simp [hc]
    · simp only [hc, Bool.false_eq_true, if_false]
      exact (List.prefix_append_right_inj _).2 (ih (n + 1))

/-- The loop when no checkpoint finds the context done. -/
theorem innerLoop_uncancelled (r : ChartRepository) (pd : DigestMap) (ctxDone : Nat → Bool)
    (es : List ChartVersion) (n : Nat) (h : ∀ k, n < k → k ≤ n + es.length → ctxDone k = false) :
    innerLoop r pd ctxDone es n
      = { jobs := jobsFor r pd es, checks := n + es.length, returned := false } := by
  induction es generalizing n with
  | nil => simp [innerLoop, jobsFor]
  | cons cv es ih =>
    have h1 : ctxDone (n + 1) = false := h (n + 1) (by omega) (by simp)
    have h2 : ∀ k, n + 1 < k → k ≤ n + 1 + es.length → ctxDone k = false := by
      intro k hk hk2
      exact h k (by omega) (by simp only [List.length_cons]; omega)
    simp only [innerLoop, h1, Bool.false_eq_true, if_false, ih (n + 1) h2, jobsFor_cons,
      List.length_cons]
    congr 1
    omega

/-- The loop when the checkpoint after the `k`-th further entry is the first
to find the context done. -/
theorem innerLoop_cancelled (r : ChartRepository) (pd : DigestMap) (ctxDone : Nat → Bool)
    (es : List ChartVersion) (n k : Nat) (hk1 : 1 ≤ k) (hk2 : k ≤ es.length)
    (hbefore : ∀ i, n < i → i < n + k → ctxDone i = false) (hat : ctxDone (n + k) = true) :
    innerLoop r pd ctxDone es n
      = { jobs := jobsFor r pd (es.take k), checks := n + k, returned := true } := by
  induction es generalizing n k with
  | nil => simp at hk2; omega
  | cons cv es ih =>
    obtain ⟨k, rfl⟩ : ∃ m, k = m + 1 := ⟨k - 1, by omega⟩
    cases k with
    | zero =>
      simp only [Nat.zero_add] at hat
      simp [innerLoop, hat, jobsFor_cons, jobsFor_nil]
    | succ m =>
      have h1 : ctxDone (n + 1) = false := hbefore (n + 1) (by omega) (by omega)
      have hk2m : m + 1 ≤ es.length := by simpa using hk2
      have ih1 := ih (n + 1) (m + 1) (by omega) hk2m
        (fun i hi hi2 => hbefore i (by omega) (by omega))
        (by rw [show n + 1 + (m + 1) = n + (m + 1 + 1) by omega]; exact hat)
      simp only [innerLoop, h1, Bool.false_eq_true, if_false, ih1, List.take_succ_cons,
        jobsFor_cons]
      congr 1
      omega

theorem trackRepositoryCharts_ok (env : Env) (ctxDone : Nat → Bool) (r : ChartRepository)
    (idx : IndexFile) (pd : DigestMap)
    (hidx : env.loadIndexFile r.URL = .ok idx)
    (hpd : env.hubApi.GetChartRepositoryPackagesDigest r.ChartRepositoryID = .ok pd) :
    trackRepositoryCharts env ctxDone r
      = { jobs := (innerLoop r pd ctxDone idx.flat 0).jobs, errors := [],
          checks := (innerLoop r pd ctxDone idx.flat 0).checks } := by
  simp [trackRepositoryCharts, hidx, hpd, outerLoop_eq_innerLoop, IndexFile.flat]

theorem trackRepositoryCharts_uncancelled (env : Env) (r : ChartRepository)
    (idx : IndexFile) (pd : DigestMap)
    (hidx : env.loadIndexFile r.URL = .ok idx)
    (hpd : env.hubApi.GetChartRepositoryPackagesDigest r.ChartRepositoryID = .ok pd) :
    trackRepositoryCharts env neverDone r
      = { jobs := jobsFor r pd idx.flat, errors := [], checks := idx.flat.length } := by
  rw [trackRepositoryCharts_ok env neverDone r idx pd hidx hpd,
    innerLoop_uncancelled r pd neverDone idx.flat 0 (fun _ _ _ => rfl)]
  simp

/-! ## Lemmas on getRepositories -/

theorem getRepositoriesLoop_ok (h : HubApi) (names : List String) (rs acc : List ChartRepository)
    (calls : List HubCall)
    (hall : names.map h.GetChartRepositoryByName = rs.map Except.ok) :
    getRepositoriesLoop h names acc calls
      = { repos := acc ++ rs, err := none, calls := calls ++ names.map HubCall.byName } := by
  induction names generalizing rs acc calls with
  | nil =>
    cases rs with
    | nil => simp [getRepositoriesLoop]
    | cons r rs => simp at hall
  | cons n names ih =>
    cases rs with
    | nil => simp at hall
    | cons r rs =>
      simp only [List.map_cons, List.cons.injEq] at hall
      simp [getRepositoriesLoop, hall.1, ih rs (acc ++ [r]) _ hall.2]

theorem getRepositoriesLoop_error (h : HubApi) (pre post : List String) (n : String) (e : Error)
    (acc : List ChartRepository) (calls : List HubCall)
    (hpre : ∀ m ∈ pre, ∃ r, h.GetChartRepositoryByName m = .ok r)
    (hn : h.GetChartRepositoryByName n = .error e) :
    getRepositoriesLoop h (pre ++ n :: post) acc calls
      = { repos := [], err := some e, calls := calls ++ (pre ++ [n]).map HubCall.byName } := by
  induction pre generalizing acc calls with
  | nil => simp [getRepositoriesLoop, hn]
  | cons m pre ih =>
    obtain ⟨r, hr⟩ := hpre m (by simp)
    have hpre2 : ∀ k ∈ pre, ∃ r, h.GetChartRepositoryByName k = .ok r :=
      fun k hk => hpre k (by simp [hk])
    simp [getRepositoriesLoop, hr, ih _ _ hpre2]

theorem getRepositories_error (h : HubApi) (names pre post : List String) (n : String)
    (e : Error)
    (hfail : (names = pre ++ n :: post ∧ (∀ m ∈ pre, ∃ r, h.GetChartRepositoryByName m = .ok r) ∧
        h.GetChartRepositoryByName n = .error e) ∨
      (names = [] ∧ h.GetChartRepositories = .error e)) :
    (getRepositories h names).repos = [] ∧ (getRepositories h names).err = some e := by
  rcases hfail with ⟨rfl, hpre, hn⟩ | ⟨rfl, hall⟩
  · have hlen : (pre ++ n :: post).length > 0 := by simp
    simp [getRepositories, hlen, getRepositoriesLoop_error h pre post n e [] [] hpre hn]
  · simp [getRepositories, hall]

/-! ## Lemmas on the steps of the machine -/

theorem sentBy_append (i : Nat) (a b : List Event) :
    sentBy i (a ++ b) = sentBy i a ++ sentBy i b := by
  simp [sentBy]

theorem step_scan_none (env : Env) (names : List String) (s : State) (i : Nat)
    (h : s.scans[i]? = none) : step env names s (.scan i) = s := by
  simp [step, h]

theorem step_scan_some (env : Env) (names : List String) (s : State) (i : Nat) (t : ScanTask)
    (h : s.scans[i]? = some t) :
    step env names s (.scan i)
      = { s with scans := s.scans.set i (scanStep env s.ctxDone i t).1,
                 wgRepos := if !t.pc.isReturned && (scanStep env s.ctxDone i t).1.pc.isReturned
                            then s.wgRepos - 1 else s.wgRepos,
                 trace := s.trace ++ (scanStep env s.ctxDone i t).2 } := by
  simp [step, h]

theorem scanStep_repo (env : Env) (c : Bool) (i : Nat) (t : ScanTask) :
    (scanStep env c i t).1.repo = t.repo := by
  obtain ⟨r, pc⟩ := t
  cases pc with
  | loading => simp only [scanStep]; split <;> rfl
  | digesting idx => simp only [scanStep]; split <;> rfl
  | ranging pd rest => cases rest <;> rfl
  | selecting pd rest => simp only [scanStep]; split <;> rfl
  | returned => rfl

theorem scanStep_returned (env : Env) (c : Bool) (i : Nat) (t : ScanTask)
    (h : t.pc.isReturned = true) : scanStep env c i t = (t, []) := by
  obtain ⟨r, pc⟩ := t
  cases pc <;> simp_all [ScanPC.isReturned, scanStep]

theorem scanStep_events (env : Env) (c : Bool) (i : Nat) (t : ScanTask) :
    ∀ ev ∈ (scanStep env c i t).2, isScanEvent ev = true := by
  obtain ⟨r, pc⟩ := t
  cases pc with
  | loading => simp only [scanStep]; split <;> simp [isScanEvent]
  | digesting idx => simp only [scanStep]; split <;> simp [isScanEvent]
  | ranging pd rest =>
    cases rest with
    | nil => simp [scanStep, isScanEvent]
    | cons cv rest =>
      simp only [scanStep]
      intro ev hev
      obtain ⟨j, _, rfl⟩ := List.mem_map.1 hev
      rfl
  | selecting pd rest => simp only [scanStep]; split <;> simp [isScanEvent]
  | returned => simp [scanStep]

theorem scanStep_sentBy_other (env : Env) (c : Bool) (i k : Nat) (t : ScanTask) (hk : k ≠ i) :
    sentBy k (scanStep env c i t).2 = [] := by
  obtain ⟨r, pc⟩ := t
  cases pc with
  | loading => simp only [scanStep]; split <;> simp [sentBy]
  | digesting idx => simp only [scanStep]; split <;> simp [sentBy]
  | ranging pd rest =>
    cases rest with
    | nil => simp [scanStep, sentBy]
    | cons cv rest =>
      simp only [scanStep, sentBy, List.filterMap_map]
      apply List.filterMap_eq_nil_iff.2
      intro j _
      simp [Ne.symm hk]
  | selecting pd rest => simp only [scanStep]; split <;> simp [sentBy]
  | returned => simp [scanStep, sentBy]

theorem scanStep_scanReturn (env : Env) (c : Bool) (i k : Nat) (t : ScanTask)
    (h : Event.scanReturn k ∈ (scanStep env c i t).2) :
    k = i ∧ t.pc.isReturned = false ∧ (scanStep env c i t).1.pc.isReturned = true := by
  obtain ⟨r, pc⟩ := t
  cases pc with
  | loading => simp only [scanStep] at h ⊢; split at h <;> simp_all [ScanPC.isReturned]
  | digesting idx => simp only [scanStep] at h ⊢; split at h <;> simp_all [ScanPC.isReturned]
  | ranging pd rest =>
    cases rest with
    | nil => simp_all [scanStep, ScanPC.isReturned]
    | cons cv rest => simp [scanStep] at h
  | selecting pd rest => simp only [scanStep] at h ⊢; split at h <;> simp_all [ScanPC.isReturned]
  | returned => simp [scanStep] at h

/-- A step by which a scan returns logs its return. -/
theorem scanStep_returns (env : Env) (c : Bool) (i : Nat) (t : ScanTask)
    (h0 : t.pc.isReturned = false) (h1 : (scanStep env c i t).1.pc.isReturned = true) :
    Event.scanReturn i ∈ (scanStep env c i t).2 ∧ sentBy i (scanStep env c i t).2 = [] ∧
      (remaining env t = [] ∨ c = true) := by
  obtain ⟨r, pc⟩ := t
  cases pc with
  | loading =>
    simp only [scanStep] at h1 ⊢
    split at h1
    · rename_i e he
      simp [sentBy, remaining, trackRepositoryCharts, he]
    · simp [ScanPC.isReturned] at h1
  | digesting idx =>
    simp only [scanStep] at h1 ⊢
    split at h1
    · rename_i e he
      simp [sentBy, remaining, he]
    · simp [ScanPC.isReturned] at h1
  | ranging pd rest =>
    cases rest with
    | nil => simp [scanStep, sentBy, remaining, jobsFor]
    | cons cv rest => simp [scanStep, ScanPC.isReturned] at h1
  | selecting pd rest =>
    simp only [scanStep] at h1 ⊢
    split at h1
    · rename_i hc
      simp [sentBy, hc]
    · simp [ScanPC.isReturned] at h1
  | returned => simp [ScanPC.isReturned] at h0

/-- A step after which a scan has not returned sends the head of what
remained to send. -/
theorem scanStep_continues (env : Env) (c : Bool) (i : Nat) (t : ScanTask)
    (h1 : (scanStep env c i t).1.pc.isReturned = false) :
    sentBy i (scanStep env c i t).2 ++ remaining env (scanStep env c i t).1 = remaining env t := by
  obtain ⟨r, pc⟩ := t
  cases pc with
  | loading =>
    simp only [scanStep] at h1 ⊢
    split
    · rename_i e he
      simp [he, ScanPC.isReturned] at h1
    · rename_i idx hidx
      simp only [sentBy, remaining, List.filterMap_nil, List.nil_append]
      cases hpd : env.hubApi.GetChartRepositoryPackagesDigest r.ChartRepositoryID with
      | error e => simp [trackRepositoryCharts, hidx, hpd]
      | ok pd => simp [trackRepositoryCharts_uncancelled env r idx pd hidx hpd]
  | digesting idx =>
    simp only [scanStep] at h1 ⊢
    split
    · rename_i e he
      simp [he, ScanPC.isReturned] at h1
    · rename_i pd hpd
      simp [sentBy, remaining, hpd]
  | ranging pd rest =>
    cases rest with
    | nil => simp [scanStep, ScanPC.isReturned] at h1
    | cons cv rest =>
      simp only [scanStep, remaining, jobsFor_cons, sentBy, List.filterMap_map]
      congr 1
      unfold sendIfChanged
      split <;> simp
  | selecting pd rest =>
    simp only [scanStep] at h1 ⊢
    split
    · rename_i hc
      simp [hc, ScanPC.isReturned] at h1
    · simp [sentBy, remaining]
  | returned => simp [scanStep, sentBy, remaining]

/-! ## Invariants of the machine -/

theorem set_of_getElem? {α : Type} (l : List α) (i : Nat) (x : α) (h : l[i]? = some x) :
    l.set i x = l := by
  induction l generalizing i with
  | nil => simp at h
  | cons a l ih =>
    cases i with
    | zero => simp at h; simp [h]
    | succ i => simp at h; simp [ih i h]

/-- What a step of the coordinator changes, by where it stands. -/
theorem runStep_cases (env : Env) (names : List String) (s : State) :
    (runStep env names s = s) ∨
    (s.pc = .resolving ∧ ∃ e, (getRepositories env.hubApi names).err = some e ∧
      runStep env names s =
        { s with
          pc := .returned,
          trace := s.trace ++ [Event.logError "Error getting repositories", Event.runDone] }) ∨
    (s.pc = .resolving ∧ (getRepositories env.hubApi names).err = none ∧
      runStep env names s
        = { s with pc := RunPC.launching ((getRepositories env.hubApi names).repos) }) ∨
    (s.pc = .launching [] ∧ runStep env names s = { s with pc := .waiting }) ∨
    (∃ r rest, s.pc = .launching (r :: rest) ∧ s.ctxDone = true ∧
      runStep env names s =
        { s with
          pc := .returned,
          trace := s.trace ++ [Event.logError "Error waiting for limiter", Event.runDone] }) ∨
    (∃ r rest, s.pc = .launching (r :: rest) ∧ s.ctxDone = false ∧
      runStep env names s =
        { s with
          pc := .launching rest,
          wgRepos := s.wgRepos + 1,
          scans := s.scans ++ [{ repo := r, pc := .loading }],
          trace := s.trace ++ [Event.scanStart s.scans.length] }) ∨
    (s.pc = .waiting ∧ s.wgRepos = 0 ∧
      runStep env names s =
        { s with
          pc := .returned,
          trace := s.trace ++ [Event.close, Event.runDone] }) := by
  obtain ⟨pc, scans, wg, c, tr⟩ := s
  cases pc with
  | resolving =>
    cases he : (getRepositories env.hubApi names).err with
    | none => right; right; left; simp [runStep, he]
    | some e => right; left; simp [runStep, he]
  | launching repos =>
    cases repos with
    | nil => right; right; right; left; simp [runStep]
    | cons r rest =>
      cases c with
      | true => right; right; right; right; left; exact ⟨r, rest, by simp [runStep]⟩
      | false => right; right; right; right; right; left; exact ⟨r, rest, by simp [runStep]⟩
  | waiting =>
    by_cases hw : wg = 0
    · right; right; right; right; right; right; simp [runStep, hw]
    · left; simp [runStep, hw]
  | returned => left; simp [runStep]

theorem wgInv_init : wgInv State.init := by
  simp [wgInv, State.init]

theorem wgInv_step (env : Env) (names : List String) (s : State) (c : Choice) (h : wgInv s) :
    wgInv (step env names s c) := by
  unfold wgInv at h ⊢
  cases c with
  | cancel => simpa [step] using h
  | run =>
    simp only [step]
    rcases runStep_cases env names s with h0 | ⟨_, _, _, h1⟩ | ⟨_, _, h1⟩ | ⟨_, h1⟩ |
      ⟨_, _, _, _, h1⟩ | ⟨r, rest, _, _, h1⟩ | ⟨_, _, h1⟩
    · rw [h0]; exact h
    · rw [h1]; exact h
    · rw [h1]; exact h
    · rw [h1]; exact h
    · rw [h1]; exact h
    · rw [h1]; simp [h, List.countP_singleton, ScanPC.isReturned]
    · rw [h1]; exact h
  | scan i =>
    cases hi : s.scans[i]? with
    | none => rw [step_scan_none env names s i hi]; exact h
    | some t =>
      rw [step_scan_some env names s i t hi]
      obtain ⟨hlt, hget⟩ := List.getElem?_eq_some_iff.1 hi
      simp only
      rw [List.countP_set _ _ _ _ hlt, hget]
      by_cases ht : t.pc.isReturned = true
      · rw [scanStep_returned env s.ctxDone i t ht]
        simp [ht, h]
      · have ht0 : t.pc.isReturned = false := by simpa using ht
        have hpos : 0 < s.scans.countP (fun t => !t.pc.isReturned) :=
          List.countP_pos_iff.2 ⟨t, List.mem_iff_getElem?.2 ⟨i, hi⟩, by simp [ht0]⟩
        by_cases ht1 : (scanStep env s.ctxDone i t).1.pc.isReturned = true
        · simp [ht0, ht1, h]
        · have ht1f : (scanStep env s.ctxDone i t).1.pc.isReturned = false := by simpa using ht1
          simp only [ht0, ht1f, h]
          simp
          omega

theorem eventsInv_init : eventsInv State.init := by
  simp [eventsInv, State.init]

theorem eventsInv_step (env : Env) (names : List String) (s : State) (c : Choice)
    (h : eventsInv s) : eventsInv (step env names s c) := by
  obtain ⟨hstart, hret⟩ := h
  cases c with
  | cancel => exact ⟨hstart, hret⟩
  | run =>
    simp only [step]
    rcases runStep_cases env names s with h0 | ⟨_, _, _, h1⟩ | ⟨_, _, h1⟩ | ⟨_, h1⟩ |
      ⟨_, _, _, _, h1⟩ | ⟨r, rest, _, _, h1⟩ | ⟨_, _, h1⟩
    · rw [h0]; exact ⟨hstart, hret⟩
    · rw [h1]
      refine ⟨fun i hi => hstart i (by simpa using hi), fun i t hi ht => ?_⟩
      exact List.mem_append_left _ (hret i t hi ht)
    · rw [h1]; exact ⟨hstart, hret⟩
    · rw [h1]; exact ⟨hstart, hret⟩
    · rw [h1]
      refine ⟨fun i hi => hstart i (by simpa using hi), fun i t hi ht => ?_⟩
      exact List.mem_append_left _ (hret i t hi ht)
    · rw [h1]
      constructor
      · intro i hi
        simp only [List.mem_append, List.mem_singleton, Event.scanStart.injEq] at hi
        simp only [List.length_append, List.length_singleton]
        rcases hi with hi | hi
        · have := hstart i hi; omega
        · omega
      · intro i t hi ht
        simp only [List.getElem?_append] at hi
        split at hi
        · exact List.mem_append_left _ (hret i t hi ht)
        · rename_i hge
          cases hk : i - s.scans.length with
          | zero =>
            rw [hk] at hi
            simp at hi
            subst hi
            simp [ScanPC.isReturned] at ht
          | succ k => rw [hk] at hi; simp at hi
    · rw [h1]
      refine ⟨fun i hi => hstart i (by simpa using hi), fun i t hi ht => ?_⟩
      exact List.mem_append_left _ (hret i t hi ht)
  | scan i =>
    cases hi : s.scans[i]? with
    | none => rw [step_scan_none env names s i hi]; exact ⟨hstart, hret⟩
    | some t =>
      rw [step_scan_some env names s i t hi]
      obtain ⟨hlt, -⟩ := List.getElem?_eq_some_iff.1 hi
      constructor
      · intro k hk
        simp only [List.mem_append, List.length_set] at hk ⊢
        rcases hk with hk | hk
        · exact hstart k hk
        · have := scanStep_events env s.ctxDone i t _ hk
          simp [isScanEvent] at this
      · intro k u hk hu
        simp only [List.getElem?_set] at hk
        simp only
        split at hk
        · rename_i hik
          subst hik
          simp only [hlt, if_true, Option.some.injEq] at hk
          subst hk
          by_cases ht : t.pc.isReturned = true
          · exact List.mem_append_left _ (hret i t hi ht)
          · exact List.mem_append_right _
              (scanStep_returns env s.ctxDone i t (by simpa using ht) hu).1
        · exact List.mem_append_left _ (hret k u hk hu)

theorem sendsInv_init (env : Env) : sendsInv env State.init := by
  simp [sendsInv, State.init, sentBy]

theorem runStep_sentBy (env : Env) (names : List String) (s : State) (i : Nat) :
    sentBy i (runStep env names s).trace = sentBy i s.trace := by
  rcases runStep_cases env names s with h0 | ⟨_, _, _, h1⟩ | ⟨_, _, h1⟩ | ⟨_, h1⟩ |
    ⟨_, _, _, _, h1⟩ | ⟨r, rest, _, _, h1⟩ | ⟨_, _, h1⟩ <;>
  first
    | rw [h0]
    | (rw [h1]; try simp [sentBy])

theorem runStep_ctxDone (env : Env) (names : List String) (s : State) :
    (runStep env names s).ctxDone = s.ctxDone := by
  rcases runStep_cases env names s with h0 | ⟨_, _, _, h1⟩ | ⟨_, _, h1⟩ | ⟨_, h1⟩ |
    ⟨_, _, _, _, h1⟩ | ⟨r, rest, _, _, h1⟩ | ⟨_, _, h1⟩ <;>
  first
    | rw [h0]
    | rw [h1]

/-- The scans after a step of the coordinator: the same, or one more, about
to load its index. -/
theorem runStep_scans (env : Env) (names : List String) (s : State) :
    (runStep env names s).scans = s.scans ∨
    ∃ r, (runStep env names s).scans = s.scans ++ [{ repo := r, pc := .loading }] := by
  rcases runStep_cases env names s with h0 | ⟨_, _, _, h1⟩ | ⟨_, _, h1⟩ | ⟨_, h1⟩ |
    ⟨_, _, _, _, h1⟩ | ⟨r, rest, _, _, h1⟩ | ⟨_, _, h1⟩
  · left; rw [h0]
  · left; rw [h1]
  · left; rw [h1]
  · left; rw [h1]
  · left; rw [h1]
  · right; exact ⟨r, by rw [h1]⟩
  · left; rw [h1]

theorem sendsInv_step (env : Env) (names : List String) (s : State) (c : Choice)
    (h : sendsInv env s) : sendsInv env (step env names s c) := by
  obtain ⟨hout, hin⟩ := h
  cases c with
  | cancel =>
    refine ⟨hout, fun i t hi => ?_⟩
    rcases hin i t hi with h1 | ⟨h1, _, h3⟩
    · exact Or.inl h1
    · exact Or.inr ⟨h1, rfl, h3⟩
  | run =>
    simp only [step]
    constructor
    · intro i hi
      rw [runStep_sentBy]
      apply hout
      rcases runStep_scans env names s with hs | ⟨r, hs⟩
      · rw [hs] at hi; exact hi
      · rw [hs] at hi; simp at hi; omega
    · intro i t hi
      rw [runStep_sentBy, runStep_ctxDone]
      rcases runStep_scans env names s with hs | ⟨r, hs⟩
      · rw [hs] at hi; exact hin i t hi
      · rw [hs, List.getElem?_append] at hi
        split at hi
        · exact hin i t hi
        · rename_i hge
          cases hk : i - s.scans.length with
          | zero =>
            rw [hk] at hi
            simp at hi
            subst hi
            left
            rw [hout i (by omega)]
            simp [remaining]
          | succ k => rw [hk] at hi; simp at hi
  | scan i =>
    cases hi : s.scans[i]? with
    | none => rw [step_scan_none env names s i hi]; exact ⟨hout, hin⟩
    | some t =>
      rw [step_scan_some env names s i t hi]
      obtain ⟨hlt, -⟩ := List.getElem?_eq_some_iff.1 hi
      constructor
      · intro k hk
        simp only [List.length_set] at hk
        simp only [sentBy_append]
        rw [hout k hk, scanStep_sentBy_other env s.ctxDone i k t (by omega)]
        rfl
      · intro k u hk
        simp only [List.getElem?_set] at hk
        simp only [sentBy_append]
        split at hk
        · rename_i hik
          subst hik
          simp only [hlt, if_true, Option.some.injEq] at hk
          subst hk
          rw [scanStep_repo]
          by_cases ht : t.pc.isReturned = true
          · rw [scanStep_returned env s.ctxDone i t ht]
            simpa [sentBy] using hin i t hi
          · have ht0 : t.pc.isReturned = false := by simpa using ht
            have hold : sentBy i s.trace ++ remaining env t
                = (trackRepositoryCharts env neverDone t.repo).jobs := by
              rcases hin i t hi with h1 | ⟨h1, _, _⟩
              · exact h1
              · exact absurd h1 ht
            by_cases ht1 : (scanStep env s.ctxDone i t).1.pc.isReturned = true
            · obtain ⟨_, hs, hrem⟩ := scanStep_returns env s.ctxDone i t ht0 ht1
              rw [hs, List.append_nil]
              rcases hrem with hrem | hc
              · left
                have hr : remaining env (scanStep env s.ctxDone i t).1 = [] := by
                  have hpc : (scanStep env s.ctxDone i t).1.pc = .returned := by
                    cases hp : (scanStep env s.ctxDone i t).1.pc <;>
                      simp [hp, ScanPC.isReturned] at ht1
                    rfl
                  simp [remaining, hpc]
                rw [hr, ← hold, hrem]
              · right
                exact ⟨ht1, hc, ⟨remaining env t, hold⟩⟩
            · left
              have hcont := scanStep_continues env s.ctxDone i t (by simpa using ht1)
              rw [List.append_assoc, hcont, hold]
        · rename_i hik
          rw [scanStep_sentBy_other env s.ctxDone i k t (fun h => hik h.symm), List.append_nil]
          exact hin k u hk

theorem shapeInv_init (env : Env) (names : List String) : shapeInv env names State.init := by
  simp [shapeInv, State.init]

theorem isOpenEvent_of_isScanEvent (ev : Event) (h : isScanEvent ev = true) :
    isOpenEvent ev = true := by
  cases ev <;> simp_all [isOpenEvent, isScanEvent]

theorem shapeInv_step_cancel (env : Env) (names : List String) (s : State)
    (h : shapeInv env names s) : shapeInv env names (step env names s .cancel) := by
  obtain ⟨pc, scans, wg, c, tr⟩ := s
  cases pc with
  | resolving => simpa [shapeInv, step] using h
  | launching rest => simpa [shapeInv, step] using h
  | waiting => simpa [shapeInv, step] using h
  | returned =>
    simp only [shapeInv, step, State.quiescent] at h ⊢
    rcases h with h1 | ⟨h1, _, h3, h4⟩ | h3
    · exact Or.inl h1
    · exact Or.inr (Or.inl ⟨h1, trivial, h3, h4⟩)
    · exact Or.inr (Or.inr h3)

theorem shapeInv_step_run (env : Env) (names : List String) (s : State)
    (hwg : wgInv s) (hev : eventsInv s) (h : shapeInv env names s) :
    shapeInv env names (step env names s .run) := by
  simp only [step]
  rcases runStep_cases env names s with h0 | ⟨hpc, e, he, h1⟩ | ⟨hpc, he, h1⟩ | ⟨hpc, h1⟩ |
    ⟨r, rest, hpc, hc, h1⟩ | ⟨r, rest, hpc, hc, h1⟩ | ⟨hpc, hw0, h1⟩
  · rw [h0]; exact h
  · rw [h1]
    simp only [shapeInv, hpc] at h ⊢
    left
    exact ⟨e, he, h.2, by simp [h.1]⟩
  · rw [h1]
    simp only [shapeInv, hpc] at h ⊢
    exact ⟨he, by simp [h.2], by simp [h.1]⟩
  · rw [h1]
    simp only [shapeInv, hpc] at h ⊢
    exact ⟨h.1, by simpa using h.2.1, h.2.2⟩
  · rw [h1]
    simp only [shapeInv, hpc] at h ⊢
    right; left
    exact ⟨h.1, hc, ⟨r, rest, h.2.1⟩, s.trace, [], by simp, h.2.2, by simp⟩
  · rw [h1]
    simp only [shapeInv, hpc] at h ⊢
    refine ⟨h.1, by simpa using h.2.1, ?_⟩
    intro ev hmem
    rcases List.mem_append.1 hmem with hm | hm
    · exact h.2.2 ev hm
    · simp only [List.mem_singleton] at hm
      subst hm
      rfl
  · rw [h1]
    simp only [shapeInv, hpc] at h ⊢
    right; right
    have hall : ∀ t ∈ s.scans, t.pc.isReturned = true := by
      unfold wgInv at hwg
      rw [hw0] at hwg
      intro t ht
      simpa using List.countP_eq_zero.1 hwg.symm t ht
    refine ⟨h.1, ?_, h.2.1, s.trace, rfl, h.2.2, ?_⟩
    · simp only [State.quiescent, RunPC.isReturned, Bool.true_and, List.all_eq_true]
      exact hall
    · intro i hi
      have hget : s.scans[i]? = some s.scans[i] := List.getElem?_eq_getElem hi
      exact hev.2 i _ hget (hall _ (List.getElem_mem hi))

theorem map_repo_set (env : Env) (c : Bool) (scans : List ScanTask) (i : Nat) (t : ScanTask)
    (hi : scans[i]? = some t) :
    (scans.set i (scanStep env c i t).1).map (fun t => t.repo) = scans.map (fun t => t.repo) := by
  rw [List.map_set, scanStep_repo]
  apply set_of_getElem?
  simp [hi]

theorem shapeInv_step_scan (env : Env) (names : List String) (s : State) (i : Nat)
    (h : shapeInv env names s) : shapeInv env names (step env names s (.scan i)) := by
  cases hi : s.scans[i]? with
  | none => rw [step_scan_none env names s i hi]; exact h
  | some t =>
    rw [step_scan_some env names s i t hi]
    have hmap := map_repo_set env s.ctxDone s.scans i t hi
    have hevs : ∀ ev ∈ (scanStep env s.ctxDone i t).2, isOpenEvent ev = true :=
      fun ev hev => isOpenEvent_of_isScanEvent ev (scanStep_events env s.ctxDone i t ev hev)
    have happ : ∀ tr : List Event, (∀ ev ∈ tr, isOpenEvent ev = true) →
        ∀ ev ∈ tr ++ (scanStep env s.ctxDone i t).2, isOpenEvent ev = true := by
      intro tr htr ev hev
      rcases List.mem_append.1 hev with hm | hm
      · exact htr ev hm
      · exact hevs ev hm
    cases hpc : s.pc with
    | resolving =>
      simp only [shapeInv, hpc] at h
      rw [h.2] at hi
      simp at hi
    | launching rest =>
      simp only [shapeInv, hpc] at h ⊢
      exact ⟨h.1, by rw [hmap]; exact h.2.1, happ _ h.2.2⟩
    | waiting =>
      simp only [shapeInv, hpc] at h ⊢
      exact ⟨h.1, by rw [hmap]; exact h.2.1, happ _ h.2.2⟩
    | returned =>
      simp only [shapeInv, hpc] at h ⊢
      rcases h with ⟨e, _, h2, _⟩ | ⟨h1, h2, h3, pre, post, h4, h5, h6⟩ | ⟨h1, h2, h3, pre, h4, h5, h6⟩
      · rw [h2] at hi
        simp at hi
      · right; left
        refine ⟨h1, h2, by rw [hmap]; exact h3, pre, post ++ (scanStep env s.ctxDone i t).2, ?_,
          h5, ?_⟩
        · rw [h4]; simp
        · intro ev hev
          rcases List.mem_append.1 hev with hm | hm
          · exact h6 ev hm
          · exact scanStep_events env s.ctxDone i t ev hm
      · right; right
        have ht : t.pc.isReturned = true := by
          simp only [State.quiescent, Bool.and_eq_true, List.all_eq_true] at h2
          exact h2.2 t (List.mem_iff_getElem?.2 ⟨i, hi⟩)
        rw [scanStep_returned env s.ctxDone i t ht]
        simp only [List.append_nil, set_of_getElem? s.scans i t hi]
        refine ⟨h1, ?_, h3, pre, h4, h5, h6⟩
        simpa [State.quiescent, hpc] using h2

theorem shapeInv_step (env : Env) (names : List String) (s : State) (c : Choice)
    (hwg : wgInv s) (hev : eventsInv s) (h : shapeInv env names s) :
    shapeInv env names (step env names s c) := by
  cases c with
  | run => exact shapeInv_step_run env names s hwg hev h
  | scan i => exact shapeInv_step_scan env names s i h
  | cancel => exact shapeInv_step_cancel env names s h

theorem Inv_init (env : Env) (names : List String) : Inv env names State.init :=
  ⟨wgInv_init, eventsInv_init, sendsInv_init env, shapeInv_init env names⟩

theorem Inv_step (env : Env) (names : List String) (s : State) (c : Choice)
    (h : Inv env names s) : Inv env names (step env names s c) :=
  ⟨wgInv_step env names s c h.wg, eventsInv_step env names s c h.events,
    sendsInv_step env names s c h.sends, shapeInv_step env names s c h.wg h.events h.shape⟩

theorem Inv_runFrom (env : Env) (names : List String) (s : State) (sched : List Choice)
    (h : Inv env names s) : Inv env names (runFrom env names s sched) := by
  induction sched generalizing s with
  | nil => exact h
  | cons c cs ih => exact ih _ (Inv_step env names s c h)

theorem Inv_exec (env : Env) (names : List String) (sched : List Choice) :
    Inv env names (exec env names sched) :=
  Inv_runFrom env names State.init sched (Inv_init env names)

/-! ## Termination of the machine -/

theorem runFrom_append (env : Env) (names : List String) (s : State) (a b : List Choice) :
    runFrom env names s (a ++ b) = runFrom env names (runFrom env names s a) b := by
  induction a generalizing s with
  | nil => rfl
  | cons c a ih => exact ih _

theorem scanStep_fuel (env : Env) (c : Bool) (i : Nat) (t : ScanTask)
    (h : t.pc.isReturned = false) :
    ScanTask.fuel env (scanStep env c i t).1 < ScanTask.fuel env t := by
  obtain ⟨r, pc⟩ := t
  cases pc with
  | loading =>
    cases hl : env.loadIndexFile r.URL <;> simp [scanStep, ScanTask.fuel, hl]
  | digesting idx =>
    cases hd : env.hubApi.GetChartRepositoryPackagesDigest r.ChartRepositoryID <;>
      simp [scanStep, ScanTask.fuel, hd]
  | ranging pd rest =>
    cases rest with
    | nil => simp [scanStep, ScanTask.fuel]
    | cons cv rest => simp [scanStep, ScanTask.fuel]; omega
  | selecting pd rest =>
    cases c <;> simp [scanStep, ScanTask.fuel]
  | returned => simp [ScanPC.isReturned] at h

theorem sum_map_set (f : ScanTask → Nat) (l : List ScanTask) (i : Nat) (t u : ScanTask)
    (h : l[i]? = some t) :
    ((l.set i u).map f).sum + f t = (l.map f).sum + f u := by
  induction l generalizing i with
  | nil => simp at h
  | cons a l ih =>
    cases i with
    | zero =>
      simp only [List.getElem?_cons_zero, Option.some.injEq] at h
      subst h
      simp only [List.set_cons_zero, List.map_cons, List.sum_cons]
      omega
    | succ i =>
      simp only [List.getElem?_cons_succ] at h
      have := ih i h
      simp only [List.set_cons_succ, List.map_cons, List.sum_cons]
      omega

theorem step_scan_fuel (env : Env) (names : List String) (s : State) (i : Nat) (t : ScanTask)
    (hi : s.scans[i]? = some t) (ht : t.pc.isReturned = false) :
    (step env names s (.scan i)).fuel env names < s.fuel env names := by
  rw [step_scan_some env names s i t hi]
  have h1 := sum_map_set (ScanTask.fuel env) s.scans i t (scanStep env s.ctxDone i t).1 hi
  have h2 := scanStep_fuel env s.ctxDone i t ht
  simp only [State.fuel]
  omega

theorem step_run_fuel (env : Env) (names : List String) (s : State)
    (h : runStep env names s ≠ s) :
    (step env names s .run).fuel env names < s.fuel env names := by
  simp only [step]
  rcases runStep_cases env names s with h0 | ⟨hpc, e, he, h1⟩ | ⟨hpc, he, h1⟩ | ⟨hpc, h1⟩ |
    ⟨r, rest, hpc, hc, h1⟩ | ⟨r, rest, hpc, hc, h1⟩ | ⟨hpc, hw0, h1⟩
  · exact absurd h0 h
  · rw [h1]; simp only [State.fuel, hpc, RunPC.fuel]; omega
  · rw [h1]; simp only [State.fuel, hpc, RunPC.fuel]; omega
  · rw [h1]; simp only [State.fuel, hpc, RunPC.fuel]; simp
  · rw [h1]; simp only [State.fuel, hpc, RunPC.fuel]; omega
  · rw [h1]
    simp only [State.fuel, hpc, RunPC.fuel, List.map_cons, List.sum_cons, List.map_append,
      List.sum_append, List.map_nil, List.sum_nil, launchFuel]
    omega
  · rw [h1]; simp only [State.fuel, hpc, RunPC.fuel]; omega

/-- A state in which something has not returned has a step, other than
cancellation, that consumes fuel: no state is a deadlock. -/
theorem progress (env : Env) (names : List String) (s : State) (hwg : wgInv s)
    (hq : s.quiescent = false) :
    ∃ c, c ≠ Choice.cancel ∧ (step env names s c).fuel env names < s.fuel env names := by
  by_cases hscan : ∃ (i : Nat) (t : ScanTask), s.scans[i]? = some t ∧ t.pc.isReturned = false
  · obtain ⟨i, t, hi, ht⟩ := hscan
    exact ⟨.scan i, by simp, step_scan_fuel env names s i t hi ht⟩
  · have hall : ∀ t ∈ s.scans, t.pc.isReturned = true := by
      intro t ht
      obtain ⟨i, hi⟩ := List.mem_iff_getElem?.1 ht
      by_contra hne
      exact hscan ⟨i, t, hi, by simpa using hne⟩
    have hw0 : s.wgRepos = 0 := by
      unfold wgInv at hwg
      rw [hwg]
      apply List.countP_eq_zero.2
      intro t ht
      simp [hall t ht]
    refine ⟨.run, by simp, step_run_fuel env names s ?_⟩
    intro hfix
    rcases runStep_cases env names s with h0 | ⟨hpc, e, he, h1⟩ | ⟨hpc, he, h1⟩ | ⟨hpc, h1⟩ |
      ⟨r, rest, hpc, hc, h1⟩ | ⟨r, rest, hpc, hc, h1⟩ | ⟨hpc, hw, h1⟩
    · cases hpc : s.pc with
      | resolving =>
        have := congrArg State.pc hfix
        cases he : (getRepositories env.hubApi names).err <;>
          simp [runStep, hpc, he] at this
      | launching rest =>
        have := congrArg State.pc hfix
        cases rest with
        | nil => simp [runStep, hpc] at this
        | cons r rest =>
          cases hc : s.ctxDone with
          | true => simp [runStep, hpc, hc] at this
          | false =>
            have hl := congrArg (fun s => s.scans.length) hfix
            simp [runStep, hpc, hc] at hl
      | waiting =>
        have := congrArg State.pc hfix
        simp [runStep, hpc, hw0] at this
      | returned =>
        have : s.quiescent = true := by
          simp only [State.quiescent, hpc, RunPC.isReturned, Bool.true_and, List.all_eq_true]
          exact hall
        rw [this] at hq
        exact Bool.noConfusion hq
    all_goals
      have hpc2 := congrArg State.pc hfix
      rw [h1] at hpc2
      simp [hpc] at hpc2

/-- From every state that satisfies the invariant, some schedule without
cancellation runs the coordinator and all the scans to their return. -/
theorem can_finish (env : Env) (names : List String) (n : Nat) (s : State) (hwg : wgInv s)
    (hn : s.fuel env names ≤ n) :
    ∃ sched, uncancelled sched ∧ (runFrom env names s sched).quiescent = true := by
  induction n generalizing s with
  | zero =>
    cases hq : s.quiescent with
    | true => exact ⟨[], by simp [uncancelled], by simpa [runFrom] using hq⟩
    | false =>
      obtain ⟨c, _, hlt⟩ := progress env names s hwg hq
      omega
  | succ n ih =>
    cases hq : s.quiescent with
    | true => exact ⟨[], by simp [uncancelled], by simpa [runFrom] using hq⟩
    | false =>
      obtain ⟨c, hc, hlt⟩ := progress env names s hwg hq
      obtain ⟨sched, hs, hfin⟩ := ih (step env names s c) (wgInv_step env names s c hwg) (by omega)
      refine ⟨c :: sched, ?_, hfin⟩
      simp only [uncancelled, List.mem_cons, not_or] at hs ⊢
      exact ⟨fun h => hc h.symm, hs⟩

/-- Every execution can be continued, without cancellation, until the
coordinator and all the scans have returned. -/
theorem exec_can_finish (env : Env) (names : List String) (sched : List Choice) :
    ∃ more, uncancelled more ∧ (exec env names (sched ++ more)).quiescent = true := by
  obtain ⟨more, h1, h2⟩ := can_finish env names _ (exec env names sched)
    (Inv_exec env names sched).wg (Nat.le_refl _)
  exact ⟨more, h1, by rw [exec, runFrom_append]; exact h2⟩

/-! ## Consequences of the invariants -/

theorem step_pc_returned (env : Env) (names : List String) (s : State) (c : Choice)
    (h : s.pc = .returned) : (step env names s c).pc = .returned := by
  cases c with
  | cancel => exact h
  | run => simp [step, runStep, h]
  | scan i =>
    cases hi : s.scans[i]? with
    | none => rw [step_scan_none env names s i hi]; exact h
    | some t => rw [step_scan_some env names s i t hi]; exact h

theorem runFrom_pc_returned (env : Env) (names : List String) (s : State) (sched : List Choice)
    (h : s.pc = .returned) : (runFrom env names s sched).pc = .returned := by
  induction sched generalizing s with
  | nil => exact h
  | cons c cs ih => exact ih _ (step_pc_returned env names s c h)

theorem step_ctxDone (env : Env) (names : List String) (s : State) (c : Choice)
    (hc : c ≠ .cancel) : (step env names s c).ctxDone = s.ctxDone := by
  cases c with
  | cancel => exact absurd rfl hc
  | run => exact runStep_ctxDone env names s
  | scan i =>
    cases hi : s.scans[i]? with
    | none => rw [step_scan_none env names s i hi]
    | some t => rw [step_scan_some env names s i t hi]

theorem runFrom_ctxDone (env : Env) (names : List String) (s : State) (sched : List Choice)
    (h : uncancelled sched) : (runFrom env names s sched).ctxDone = s.ctxDone := by
  induction sched generalizing s with
  | nil => rfl
  | cons c cs ih =>
    simp only [uncancelled, List.mem_cons, not_or] at h
    rw [runFrom, ih _ h.2, step_ctxDone env names s c (fun e => h.1 e.symm)]

theorem exec_ctxDone (env : Env) (names : List String) (sched : List Choice)
    (h : uncancelled sched) : (exec env names sched).ctxDone = false :=
  runFrom_ctxDone env names State.init sched h

theorem not_open_close : isOpenEvent Event.close = false := rfl

theorem not_open_runDone : isOpenEvent Event.runDone = false := rfl

theorem not_open_limiter : isOpenEvent (Event.logError "Error waiting for limiter") = false := by
  decide

theorem not_mem_of_all {p : Event → Bool} {l : List Event} {ev : Event}
    (h : ∀ e ∈ l, p e = true) (hev : p ev = false) : ev ∉ l := by
  intro hmem
  rw [h ev hmem] at hev
  exact Bool.noConfusion hev

/-- A list has at most one splitting around an element that occurs on neither
side. -/
theorem split_unique {α : Type} (x : α) (a b a2 b2 : List α) (ha : x ∉ a2) (hb : x ∉ b2)
    (h : a ++ x :: b = a2 ++ x :: b2) : a = a2 ∧ b = b2 := by
  induction a generalizing a2 with
  | nil =>
    cases a2 with
    | nil => simpa using h
    | cons y a2 =>
      simp only [List.nil_append, List.cons_append, List.cons.injEq] at h
      exact absurd (by simp [h.1]) ha
  | cons y a ih =>
    cases a2 with
    | nil =>
      simp only [List.nil_append, List.cons_append, List.cons.injEq] at h
      exact absurd (by rw [← h.2]; simp) hb
    | cons z a2 =>
      simp only [List.cons_append, List.cons.injEq] at h
      obtain ⟨h1, h2⟩ := ih a2 (fun hm => ha (List.mem_cons_of_mem _ hm)) h.2
      exact ⟨by rw [h.1, h1], h2⟩

/-- The ways an execution stands with respect to the close of the Queue:
either the Queue is not closed, or the trace ends with the close and the
completion of the run, every started scan having returned before. -/
theorem closed_shape (env : Env) (names : List String) (s : State) (h : Inv env names s) :
    Event.close ∉ s.trace ∨
    ((getRepositories env.hubApi names).err = none ∧ s.quiescent = true ∧
      s.scans.map (fun t => t.repo) = (getRepositories env.hubApi names).repos ∧
      ∃ pre, s.trace = pre ++ [Event.close, Event.runDone] ∧
        (∀ ev ∈ pre, isOpenEvent ev = true) ∧
        ∀ i, i < s.scans.length → Event.scanReturn i ∈ pre) := by
  have hs := h.shape
  cases hpc : s.pc with
  | resolving =>
    simp only [shapeInv, hpc] at hs
    left; simp [hs.1]
  | launching rest =>
    simp only [shapeInv, hpc] at hs
    left; exact not_mem_of_all hs.2.2 not_open_close
  | waiting =>
    simp only [shapeInv, hpc] at hs
    left; exact not_mem_of_all hs.2.2 not_open_close
  | returned =>
    simp only [shapeInv, hpc] at hs
    rcases hs with ⟨e, _, _, h3⟩ | ⟨_, _, _, pre, post, h4, h5, h6⟩ | h3
    · left; simp [h3]
    · left
      rw [h4]
      simp only [List.mem_append, List.mem_cons, List.mem_singleton, not_or]
      have hp := not_mem_of_all h5 not_open_close
      have hq : Event.close ∉ post := not_mem_of_all h6 (by rfl)
      simp [hp, hq]
    · right; exact h3

/-! ## The scan: novelty, change detection, dedup, cancellation, order -/

/-- An entry whose key is absent from the known digests and whose digest is
not empty is sent as one job, at its place in the sequence of jobs. -/
theorem novelty_of_nonempty_digest (env : Env) (r : ChartRepository) (idx : IndexFile)
    (pd : DigestMap) (e : ChartVersion) (pre post : List ChartVersion)
    (hidx : env.loadIndexFile r.URL = .ok idx)
    (hpd : env.hubApi.GetChartRepositoryPackagesDigest r.ChartRepositoryID = .ok pd)
    (hsplit : idx.flat = pre ++ e :: post)
    (habsent : pd (chartKey e) = none) (hdigest : e.Digest ≠ "") :
    (trackRepositoryCharts env neverDone r).jobs
      = jobsFor r pd pre ++ { repo := r, chartVersion := e } :: jobsFor r pd post := by
  rw [trackRepositoryCharts_uncancelled env r idx pd hidx hpd]
  simp only [hsplit, jobsFor_append, jobsFor_cons]
  have hne : e.Digest ≠ pd.index (chartKey e) := by simpa [DigestMap.index, habsent] using hdigest
  simp [sendIfChanged, hne]

/-- C1, at the failing input: the index lists `foo@2.0.0` without a digest,
nothing is registered for the repository, so the key `foo@2.0.0` is absent
from the known digests, the scan is not cancelled, and no job is sent. -/
theorem novelty_fails_on_empty_digest :
    envNoDigest.loadIndexFile repoA.URL = .ok { Entries := [("foo", [fooNoDigest])] } ∧
    envNoDigest.hubApi.GetChartRepositoryPackagesDigest repoA.ChartRepositoryID
      = .ok noDigests ∧
    noDigests (chartKey fooNoDigest) = none ∧
    (trackRepositoryCharts envNoDigest neverDone repoA).jobs = [] :=
  ⟨rfl, rfl, rfl, by decide⟩

/-- C2 (P3, change detection): in a scan whose index load and digest lookup
succeed and which is not cancelled, an index entry `e` whose key is stored
with a digest different from that of `e` gets exactly one job: at each place
where `e` stands in the index, the job sequence holds the job pairing the
scanned repository with `e` itself, between the jobs of the entries before
and those of the entries after; every job carrying `e` is that job, and there
are as many of them as occurrences of `e` in the index (at least one). -/
theorem change_detection (env : Env) (r : ChartRepository) (idx : IndexFile)
    (pd : DigestMap) (e : ChartVersion) (stored : String)
    (hidx : env.loadIndexFile r.URL = .ok idx)
    (hpd : env.hubApi.GetChartRepositoryPackagesDigest r.ChartRepositoryID = .ok pd)
    (hmem : e ∈ idx.flat)
    (hstored : pd (chartKey e) = some stored) (hne : stored ≠ e.Digest) :
    (∀ pre post, idx.flat = pre ++ e :: post →
      (trackRepositoryCharts env neverDone r).jobs
        = jobsFor r pd pre ++ { repo := r, chartVersion := e } :: jobsFor r pd post) ∧
    (∀ j ∈ (trackRepositoryCharts env neverDone r).jobs,
      j.chartVersion = e → j = { repo := r, chartVersion := e }) ∧
    (trackRepositoryCharts env neverDone r).jobs.count { repo := r, chartVersion := e }
      = idx.flat.count e ∧
    1 ≤ idx.flat.count e := by
  have hd : e.Digest ≠ pd.index (chartKey e) := by
    simp only [DigestMap.index, hstored]
    exact fun h => hne h.symm
  rw [trackRepositoryCharts_uncancelled env r idx pd hidx hpd]
  refine ⟨?_, ?_, jobsFor_count r pd idx.flat e hd, List.count_pos_iff.2 hmem⟩
  · intro pre post hsplit
    simp only [hsplit, jobsFor_append, jobsFor_cons]
    simp [sendIfChanged, hd]
  · intro j hj hje
    have hr := (mem_jobsFor.1 hj).1
    cases j
    simp_all

/-- Witness of `change_detection`: `foo@1.1.0` is stored with digest `"old"`
and listed with digest `"bbb"`. -/
theorem change_detection_witness :
    (trackRepositoryCharts envChanged neverDone repoA).jobs.count
        { repo := repoA, chartVersion := foo110 }
      = (IndexFile.flat { Entries := [("foo", [foo100, foo110])] }).count foo110 :=
  (change_detection envChanged repoA { Entries := [("foo", [foo100, foo110])] } knownOld foo110
    "old" rfl rfl (by decide) (by decide) (by decide)).2.2.1

/-- C3 (P1, dedup): in any scan, cancelled or not, no job is sent for an
entry whose key is stored with a digest equal to that of the entry. -/
theorem dedup (env : Env) (ctxDone : Nat → Bool) (r : ChartRepository) (pd : DigestMap)
    (e : ChartVersion)
    (hpd : env.hubApi.GetChartRepositoryPackagesDigest r.ChartRepositoryID = .ok pd)
    (hstored : pd (chartKey e) = some e.Digest) :
    ∀ j ∈ (trackRepositoryCharts env ctxDone r).jobs, j.chartVersion ≠ e := by
  intro j hj hje
  cases hidx : env.loadIndexFile r.URL with
  | error err => simp [trackRepositoryCharts, hidx] at hj
  | ok idx =>
    rw [trackRepositoryCharts_ok env ctxDone r idx pd hidx hpd] at hj
    have hmem := (innerLoop_jobs_sublist r pd ctxDone idx.flat 0).subset hj
    have hd := (mem_jobsFor.1 hmem).2.2
    rw [hje] at hd
    exact hd (by simp [DigestMap.index, hstored])

/-- Witness of `dedup`, the scenario of the specification: with known digests
`foo@1.0.0 ↦ "aaa"` and an index listing `foo@1.0.0` (digest `"aaa"`) and
`foo@1.1.0` (digest `"bbb"`), no job carries `foo@1.0.0` and the jobs are
exactly the one for `foo@1.1.0`. -/
theorem dedup_witness :
    (∀ j ∈ (trackRepositoryCharts envFoo neverDone repoA).jobs, j.chartVersion ≠ foo100) ∧
    (trackRepositoryCharts envFoo neverDone repoA).jobs
      = [{ repo := repoA, chartVersion := foo110 }] :=
  ⟨dedup envFoo neverDone repoA knownFoo foo100 rfl (by decide), by decide⟩

/-- C8 (cooperative cancellation inside a scan): when the checkpoint after
the `k`-th entry is the first to find the context done, the scan has passed
`k` checkpoints, one per entry processed, the jobs sent are those of the
first `k` entries, a prefix of the jobs of the uncancelled scan, and no error
is logged. -/
theorem cancellation_checkpoint (env : Env) (ctxDone : Nat → Bool) (r : ChartRepository)
    (idx : IndexFile) (pd : DigestMap) (k : Nat)
    (hidx : env.loadIndexFile r.URL = .ok idx)
    (hpd : env.hubApi.GetChartRepositoryPackagesDigest r.ChartRepositoryID = .ok pd)
    (hk1 : 1 ≤ k) (hk2 : k ≤ idx.flat.length)
    (hbefore : ∀ i, 1 ≤ i → i < k → ctxDone i = false) (hat : ctxDone k = true) :
    trackRepositoryCharts env ctxDone r
      = { jobs := ((idx.flat.take k).filter
                    (fun cv => decide (cv.Digest ≠ pd.index (chartKey cv)))).map
                    (fun cv => { repo := r, chartVersion := cv }),
          errors := [], checks := k } ∧
    (trackRepositoryCharts env ctxDone r).jobs <+: (trackRepositoryCharts env neverDone r).jobs := by
  have hloop := innerLoop_cancelled r pd ctxDone idx.flat 0 k hk1 hk2
    (fun i hi hi2 => hbefore i (by omega) (by omega)) (by simpa using hat)
  have hres := trackRepositoryCharts_ok env ctxDone r idx pd hidx hpd
  rw [hloop] at hres
  refine ⟨by simpa [jobsFor] using hres, ?_⟩
  rw [hres, trackRepositoryCharts_uncancelled env r idx pd hidx hpd]
  simp only
  conv => rhs; rw [← List.take_append_drop k idx.flat]
  rw [jobsFor_append]
  exact List.prefix_append _ _

/-- Witness of `cancellation_checkpoint`: the context is found done at the first
checkpoint of a scan of two entries. -/
theorem cancellation_checkpoint_witness :
    trackRepositoryCharts envChanged doneAtFirst repoA
      = { jobs := (((IndexFile.flat { Entries := [("foo", [foo100, foo110])] }).take 1).filter
                    (fun cv => decide (cv.Digest ≠ knownOld.index (chartKey cv)))).map
                    (fun cv => { repo := repoA, chartVersion := cv }),
          errors := [], checks := 1 } ∧
    (trackRepositoryCharts envChanged doneAtFirst repoA).jobs
      <+: (trackRepositoryCharts envChanged neverDone repoA).jobs :=
  cancellation_checkpoint envChanged doneAtFirst repoA { Entries := [("foo", [foo100, foo110])] }
    knownOld 1 rfl rfl (by decide) (by decide) (fun i h1 h2 => by omega) (by decide)

/-- C9 (order preservation): the jobs of an uncancelled scan whose index load
and digest lookup succeed are the index entries, flattened group by group in
the order the groups are visited, filtered by "the digest differs from the
lookup of name@version in the known digests", in the same relative order; so
there are never more jobs than index entries. -/
theorem order_preservation (env : Env) (r : ChartRepository) (idx : IndexFile) (pd : DigestMap)
    (hidx : env.loadIndexFile r.URL = .ok idx)
    (hpd : env.hubApi.GetChartRepositoryPackagesDigest r.ChartRepositoryID = .ok pd) :
    (trackRepositoryCharts env neverDone r).jobs
      = (((idx.Entries.map (fun g => g.2)).flatten).filter
          (fun cv => decide (cv.Digest ≠ pd.index (chartKey cv)))).map
          (fun cv => { repo := r, chartVersion := cv }) ∧
    ((trackRepositoryCharts env neverDone r).jobs.map job.chartVersion).Sublist
      ((idx.Entries.map (fun g => g.2)).flatten) ∧
    (trackRepositoryCharts env neverDone r).jobs.length
      ≤ ((idx.Entries.map (fun g => g.2)).flatten).length := by
  rw [trackRepositoryCharts_uncancelled env r idx pd hidx hpd]
  refine ⟨rfl, ?_, jobsFor_length_le r pd idx.flat⟩
  simp only [jobsFor, List.map_map]
  have : (job.chartVersion ∘ fun cv => ({ repo := r, chartVersion := cv } : job)) = id := rfl
  rw [this, List.map_id]
  exact List.filter_sublist _

/-- Witness of `order_preservation` on an index of two entries, both to be
processed: the jobs follow the order of the index. -/
theorem order_preservation_witness :
    ((trackRepositoryCharts envChanged neverDone repoA).jobs
      = ((([("foo", [foo100, foo110])].map (fun g => g.2)).flatten).filter
          (fun cv => decide (cv.Digest ≠ knownOld.index (chartKey cv)))).map
          (fun cv => { repo := repoA, chartVersion := cv }) ∧
    ((trackRepositoryCharts envChanged neverDone repoA).jobs.map job.chartVersion).Sublist
      (([("foo", [foo100, foo110])].map (fun g => g.2)).flatten) ∧
    (trackRepositoryCharts envChanged neverDone repoA).jobs.length
      ≤ (([("foo", [foo100, foo110])].map (fun g => g.2)).flatten).length) ∧
    (trackRepositoryCharts envChanged neverDone repoA).jobs
      = [{ repo := repoA, chartVersion := foo100 }, { repo := repoA, chartVersion := foo110 }] :=
  ⟨order_preservation envChanged repoA { Entries := [("foo", [foo100, foo110])] } knownOld
    rfl rfl, by decide⟩

/-! ## Resolution of the repositories -/

/-- C10 (repository selection): with no names, `getRepositories` makes the
one call `GetChartRepositories`, no lookup by name, and returns its result;
with a non-empty list of names whose lookups all succeed, it returns the
repositories found for the names, in the order of the names, duplicates
kept, and makes one lookup by name per name and no call of
`GetChartRepositories`. -/
theorem repository_selection (h : HubApi) :
    (getRepositories h []).calls = [HubCall.all] ∧
    (∀ rs, h.GetChartRepositories = .ok rs →
      (getRepositories h []).repos = rs ∧ (getRepositories h []).err = none) ∧
    (∀ e, h.GetChartRepositories = .error e →
      (getRepositories h []).repos = [] ∧ (getRepositories h []).err = some e) ∧
    (∀ names rs, names ≠ [] → names.map h.GetChartRepositoryByName = rs.map Except.ok →
      (getRepositories h names).repos = rs ∧ (getRepositories h names).err = none ∧
      (getRepositories h names).repos.length = names.length ∧
      (getRepositories h names).calls = names.map HubCall.byName ∧
      HubCall.all ∉ (getRepositories h names).calls) := by
  refine ⟨?_, ?_, ?_, ?_⟩
  · cases hall : h.GetChartRepositories <;> simp [getRepositories, hall]
  · intro rs hall
    simp [getRepositories, hall]
  · intro e hall
    simp [getRepositories, hall]
  · intro names rs hne hmap
    have hlen : names.length > 0 := List.length_pos.2 hne
    have hl : rs.length = names.length := by
      have := congrArg List.length hmap
      simpa using this.symm
    simp [getRepositories, hlen, getRepositoriesLoop_ok h names rs [] [] hmap, hl]

/-- Witness of `repository_selection`: the names `a`, `b`, `a` resolve to the
repositories A, B, A. -/
theorem repository_selection_witness :
    (getRepositories envTwo.hubApi ["a", "b", "a"]).repos = [repoA, repoB, repoA] ∧
    (getRepositories envTwo.hubApi ["a", "b", "a"]).err = none ∧
    (getRepositories envTwo.hubApi ["a", "b", "a"]).repos.length = ["a", "b", "a"].length ∧
    (getRepositories envTwo.hubApi ["a", "b", "a"]).calls
      = ["a", "b", "a"].map HubCall.byName ∧
    HubCall.all ∉ (getRepositories envTwo.hubApi ["a", "b", "a"]).calls :=
  (repository_selection envTwo.hubApi).2.2.2 ["a", "b", "a"] [repoA, repoB, repoA]
    (by decide) rfl

/-- C4 (fail-fast resolution): when the lookup of a name fails, the names
before it having resolved, or when no name is given and the listing of all
repositories fails, `getRepositories` returns that error and no repository;
in every execution of `run`, no scan is started, no job is sent and the Queue
is not closed; and once the coordinator has taken its first step, the trace
is the logged error followed by the completion of the run. -/
theorem fail_fast_resolution (env : Env) (names pre post : List String) (n : String)
    (e : Error) (sched : List Choice)
    (hfail : (names = pre ++ n :: post ∧
        (∀ m ∈ pre, ∃ r, env.hubApi.GetChartRepositoryByName m = .ok r) ∧
        env.hubApi.GetChartRepositoryByName n = .error e) ∨
      (names = [] ∧ env.hubApi.GetChartRepositories = .error e)) :
    (getRepositories env.hubApi names).repos = [] ∧
    (getRepositories env.hubApi names).err = some e ∧
    (exec env names sched).scans = [] ∧
    (∀ i, Event.scanStart i ∉ (exec env names sched).trace) ∧
    (∀ i j, Event.send i j ∉ (exec env names sched).trace) ∧
    Event.close ∉ (exec env names sched).trace ∧
    (exec env names (.run :: sched)).trace
      = [Event.logError "Error getting repositories", Event.runDone] := by
  obtain ⟨hrepos, herr⟩ := getRepositories_error env.hubApi names pre post n e hfail
  have key : ∀ sch, (exec env names sch).scans = [] ∧
      ((exec env names sch).trace = [] ∨
        (exec env names sch).trace
          = [Event.logError "Error getting repositories", Event.runDone]) := by
    intro sch
    have hs := (Inv_exec env names sch).shape
    cases hpc : (exec env names sch).pc with
    | resolving =>
      simp only [shapeInv, hpc] at hs
      exact ⟨hs.2, Or.inl hs.1⟩
    | launching rest =>
      simp only [shapeInv, hpc, herr] at hs
      exact absurd hs.1 (by simp)
    | waiting =>
      simp only [shapeInv, hpc, herr] at hs
      exact absurd hs.1 (by simp)
    | returned =>
      simp only [shapeInv, hpc, herr] at hs
      rcases hs with ⟨_, _, h2, h3⟩ | ⟨h1, _⟩ | ⟨h1, _⟩
      · exact ⟨h2, Or.inr h3⟩
      · exact absurd h1 (by simp)
      · exact absurd h1 (by simp)
  refine ⟨hrepos, herr, (key sched).1, ?_, ?_, ?_, ?_⟩
  · intro i
    rcases (key sched).2 with h | h <;> simp [h]
  · intro i j
    rcases (key sched).2 with h | h <;> simp [h]
  · rcases (key sched).2 with h | h <;> simp [h]
  · have hfirst : (step env names State.init .run).pc = .returned := by
      simp [step, runStep, State.init, herr]
    have hpc : (exec env names (.run :: sched)).pc = .returned :=
      runFrom_pc_returned env names _ sched hfirst
    have hs := (Inv_exec env names (.run :: sched)).shape
    simp only [shapeInv, hpc, herr] at hs
    rcases hs with ⟨_, _, _, h3⟩ | ⟨h1, _⟩ | ⟨h1, _⟩
    · exact h3
    · exact absurd h1 (by simp)
    · exact absurd h1 (by simp)

/-- Witness of `fail_fast_resolution`: the name `a` resolves, the name `zzz`
does not. -/
theorem fail_fast_resolution_witness :
    (getRepositories envTwo.hubApi ["a", "zzz", "b"]).repos = [] ∧
    (getRepositories envTwo.hubApi ["a", "zzz", "b"]).err = some "not found" ∧
    (exec envTwo ["a", "zzz", "b"] schedTwo).scans = [] ∧
    (∀ i, Event.scanStart i ∉ (exec envTwo ["a", "zzz", "b"] schedTwo).trace) ∧
    (∀ i j, Event.send i j ∉ (exec envTwo ["a", "zzz", "b"] schedTwo).trace) ∧
    Event.close ∉ (exec envTwo ["a", "zzz", "b"] schedTwo).trace ∧
    (exec envTwo ["a", "zzz", "b"] (.run :: schedTwo)).trace
      = [Event.logError "Error getting repositories", Event.runDone] :=
  fail_fast_resolution envTwo ["a", "zzz", "b"] ["a"] ["b"] "zzz" "not found" schedTwo
    (Or.inl ⟨rfl, by
      intro m hm
      simp only [List.mem_singleton] at hm
      subst hm
      exact ⟨repoA, rfl⟩, rfl⟩)

/-! ## The life cycle of the Queue -/

/-- C7 (P5, closure safety): in every execution of `run`, `close(d.Queue)`
happens at most once; when it happens, every scan that was started has
returned before it, nothing is sent after it, and all the scans have
returned. -/
theorem closure_safety (env : Env) (names : List String) (sched : List Choice) :
    (exec env names sched).trace.count Event.close ≤ 1 ∧
    ∀ pre post, (exec env names sched).trace = pre ++ Event.close :: post →
      Event.close ∉ pre ∧ Event.close ∉ post ∧
      (∀ i, Event.scanStart i ∈ (exec env names sched).trace →
        Event.scanStart i ∈ pre ∧ Event.scanReturn i ∈ pre) ∧
      (∀ i j, Event.send i j ∉ post) ∧
      (∀ t ∈ (exec env names sched).scans, t.pc.isReturned = true) := by
  have hinv := Inv_exec env names sched
  rcases closed_shape env names _ hinv with hno | ⟨_, hq, _, pre0, htr, hopen, hret⟩
  · refine ⟨by rw [List.count_eq_zero.2 hno]; omega, ?_⟩
    intro pre post hsplit
    exact absurd (by rw [hsplit]; simp) hno
  · have hc0 : Event.close ∉ pre0 := not_mem_of_all hopen not_open_close
    constructor
    · rw [htr, List.count_append, List.count_eq_zero.2 hc0]
      decide
    · intro pre post hsplit
      rw [htr] at hsplit
      have hu := split_unique Event.close pre post pre0 [Event.runDone] hc0 (by decide)
        (by simpa using hsplit.symm)
      obtain ⟨rfl, rfl⟩ := hu
      refine ⟨hc0, by decide, ?_, ?_, ?_⟩
      · intro i hi
        have hlt := hinv.events.1 i hi
        refine ⟨?_, hret i hlt⟩
        rw [htr] at hi
        simpa using hi
      · intro i j
        simp
      · simp only [State.quiescent, Bool.and_eq_true, List.all_eq_true] at hq
        exact hq.2

/-- Witness of `closure_safety`: two scans, run to completion. -/
theorem closure_safety_witness :
    Event.close ∉ traceTwoOpen ∧ Event.close ∉ [Event.runDone] ∧
    (∀ i, Event.scanStart i ∈ (exec envTwo [] schedTwo).trace →
      Event.scanStart i ∈ traceTwoOpen ∧ Event.scanReturn i ∈ traceTwoOpen) ∧
    (∀ i j, Event.send i j ∉ [Event.runDone]) ∧
    (∀ t ∈ (exec envTwo [] schedTwo).scans, t.pc.isReturned = true) :=
  (closure_safety envTwo [] schedTwo).2 traceTwoOpen [Event.runDone] (by decide)

/-- C5 (P4, isolation): when the repositories resolve, `run` can be run to
its return without cancellation, and in every execution without cancellation
in which `run` has returned: the trace ends with the close of the Queue and
the completion of the run, the scan of every resolved repository having
returned before the close; the jobs sent by the scan of each repository are
those of its own sequential scan; and a repository whose index load or
digest lookup fails sends no job. -/
theorem isolation (env : Env) (names : List String)
    (hres : (getRepositories env.hubApi names).err = none) :
    (∃ sched, uncancelled sched ∧ (exec env names sched).pc.isReturned = true) ∧
    ∀ sched, uncancelled sched → (exec env names sched).pc.isReturned = true →
      (∃ pre, (exec env names sched).trace = pre ++ [Event.close, Event.runDone] ∧
        Event.close ∉ pre ∧
        ∀ i, i < (getRepositories env.hubApi names).repos.length → Event.scanReturn i ∈ pre) ∧
      (∀ i r, (getRepositories env.hubApi names).repos[i]? = some r →
        sentBy i (exec env names sched).trace = (trackRepositoryCharts env neverDone r).jobs ∧
        (((∃ e, env.loadIndexFile r.URL = .error e) ∨
            ∃ e, env.hubApi.GetChartRepositoryPackagesDigest r.ChartRepositoryID = .error e) →
          sentBy i (exec env names sched).trace = [])) ∧
      (∀ i, (getRepositories env.hubApi names).repos.length ≤ i →
        sentBy i (exec env names sched).trace = []) := by
  constructor
  · obtain ⟨more, hmore, hq⟩ := exec_can_finish env names []
    refine ⟨more, hmore, ?_⟩
    simp only [List.nil_append, State.quiescent, Bool.and_eq_true] at hq
    exact hq.1
  · intro sched hunc hret
    have hinv := Inv_exec env names sched
    have hctx := exec_ctxDone env names sched hunc
    have hs := hinv.shape
    cases hpc : (exec env names sched).pc with
    | resolving => simp [hpc, RunPC.isReturned] at hret
    | launching rest => simp [hpc, RunPC.isReturned] at hret
    | waiting => simp [hpc, RunPC.isReturned] at hret
    | returned =>
      simp only [shapeInv, hpc, hres, hctx] at hs
      rcases hs with ⟨_, h1, _⟩ | ⟨_, h1, _⟩ | ⟨_, hq, hmap, pre, htr, hopen, hretd⟩
      · exact absurd h1 (by simp)
      · exact absurd h1 (by simp)
      · have hlen : (exec env names sched).scans.length
            = (getRepositories env.hubApi names).repos.length := by
          rw [← hmap, List.length_map]
        have hjobs : ∀ i r, (getRepositories env.hubApi names).repos[i]? = some r →
            sentBy i (exec env names sched).trace
              = (trackRepositoryCharts env neverDone r).jobs := by
          intro i r hir
          rw [← hmap, List.getElem?_map] at hir
          cases hit : (exec env names sched).scans[i]? with
          | none => simp [hit] at hir
          | some t =>
            simp only [hit, Option.map_some', Option.some.injEq] at hir
            subst hir
            have htret : t.pc.isReturned = true := by
              simp only [State.quiescent, Bool.and_eq_true, List.all_eq_true] at hq
              exact hq.2 t (List.mem_iff_getElem?.2 ⟨i, hit⟩)
            rcases hinv.sends.2 i t hit with h1 | ⟨_, h2, _⟩
            · have hrem : remaining env t = [] := by
                cases hp : t.pc <;> simp [hp, ScanPC.isReturned] at htret
                simp [remaining, hp]
              rw [hrem, List.append_nil] at h1
              exact h1
            · rw [hctx] at h2
              exact Bool.noConfusion h2
        refine ⟨⟨pre, htr, not_mem_of_all hopen not_open_close, ?_⟩, ?_, ?_⟩
        · intro i hi
          exact hretd i (by omega)
        · intro i r hir
          refine ⟨hjobs i r hir, ?_⟩
          rintro (⟨e, he⟩ | ⟨e, he⟩)
          · rw [hjobs i r hir]
            simp [trackRepositoryCharts, he]
          · rw [hjobs i r hir]
            cases hl : env.loadIndexFile r.URL <;> simp [trackRepositoryCharts, he, hl]
        · intro i hi
          exact hinv.sends.1 i (by omega)

/-- Witness of `isolation`, the scenario of the specification: of two
repositories, the index of the first fails to load and the second has one
entry to process; the run sends exactly one job, from the second, and closes
the Queue. -/
theorem isolation_witness :
    ((∃ pre, (exec envTwo [] schedTwo).trace = pre ++ [Event.close, Event.runDone] ∧
        Event.close ∉ pre ∧
        ∀ i, i < (getRepositories envTwo.hubApi []).repos.length → Event.scanReturn i ∈ pre) ∧
      (∀ i r, (getRepositories envTwo.hubApi []).repos[i]? = some r →
        sentBy i (exec envTwo [] schedTwo).trace
          = (trackRepositoryCharts envTwo neverDone r).jobs ∧
        (((∃ e, envTwo.loadIndexFile r.URL = .error e) ∨
            ∃ e, envTwo.hubApi.GetChartRepositoryPackagesDigest r.ChartRepositoryID
              = .error e) →
          sentBy i (exec envTwo [] schedTwo).trace = [])) ∧
      (∀ i, (getRepositories envTwo.hubApi []).repos.length ≤ i →
        sentBy i (exec envTwo [] schedTwo).trace = [])) ∧
    (getRepositories envTwo.hubApi []).repos = [repoB, repoA] ∧
    sentBy 0 (exec envTwo [] schedTwo).trace = [] ∧
    sent (exec envTwo [] schedTwo).trace = [{ repo := repoA, chartVersion := foo110 }] :=
  ⟨(isolation envTwo [] (by decide)).2 schedTwo (by unfold uncancelled; decide) (by decide),
    by decide, by decide, by decide⟩

/-- C6, refuted: the names `a`, `b` resolve; the context is cancelled after
the scan of the first repository was started, when the coordinator is about
to wait on the limiter for the second.  The run logs the limiter error and
signals its completion; the started scan then still sends a job and returns.
Everything has returned and the Queue was never closed. -/
theorem closure_on_cancellation_fails :
    (getRepositories envTwo.hubApi ["a", "b"]).err = none ∧
    (exec envTwo ["a", "b"] schedCancel).ctxDone = true ∧
    (exec envTwo ["a", "b"] schedCancel).quiescent = true ∧
    (exec envTwo ["a", "b"] schedCancel).trace
      = [Event.scanStart 0, Event.logError "Error waiting for limiter", Event.runDone,
         Event.send 0 { repo := repoA, chartVersion := foo110 }, Event.scanReturn 0] ∧
    Event.close ∉ (exec envTwo ["a", "b"] schedCancel).trace := by
  decide

/-- C6, amended: when the repositories resolve, every execution can be
continued until `run` and all the scans have returned; and once `run` has
returned, cancelled or not: if no `limiter.Wait` failed, the Queue was closed
exactly once, after every started scan had returned, and the run signalled
its completion after the close; if a `limiter.Wait` failed, the context is
done, the Queue is never closed, and after logging the error the run
signalled its completion at once and started no further scan. -/
theorem closure_on_cancellation (env : Env) (names : List String) (sched : List Choice)
    (hres : (getRepositories env.hubApi names).err = none) :
    (∃ more, (exec env names (sched ++ more)).quiescent = true) ∧
    ((exec env names sched).pc.isReturned = true →
      (Event.logError "Error waiting for limiter" ∉ (exec env names sched).trace →
        (exec env names sched).trace.count Event.close = 1 ∧
        ∃ pre, (exec env names sched).trace = pre ++ [Event.close, Event.runDone] ∧
          Event.close ∉ pre ∧ Event.runDone ∉ pre ∧
          ∀ i, Event.scanStart i ∈ (exec env names sched).trace →
            Event.scanStart i ∈ pre ∧ Event.scanReturn i ∈ pre) ∧
      (Event.logError "Error waiting for limiter" ∈ (exec env names sched).trace →
        (exec env names sched).ctxDone = true ∧
        Event.close ∉ (exec env names sched).trace ∧
        ∃ pre post, (exec env names sched).trace
            = pre ++ [Event.logError "Error waiting for limiter", Event.runDone] ++ post ∧
          Event.runDone ∉ pre ∧ Event.runDone ∉ post ∧
          ∀ i, Event.scanStart i ∉ post)) := by
  constructor
  · obtain ⟨more, _, hq⟩ := exec_can_finish env names sched
    exact ⟨more, hq⟩
  · intro hret
    have hinv := Inv_exec env names sched
    have hs := hinv.shape
    cases hpc : (exec env names sched).pc with
    | resolving => simp [hpc, RunPC.isReturned] at hret
    | launching rest => simp [hpc, RunPC.isReturned] at hret
    | waiting => simp [hpc, RunPC.isReturned] at hret
    | returned =>
      simp only [shapeInv, hpc, hres] at hs
      rcases hs with ⟨_, h1, _⟩ | ⟨_, hctx, _, pre, post, htr, hopen, hscan⟩ |
        ⟨_, _, _, pre, htr, hopen, hretd⟩
      · exact absurd h1 (by simp)
      · have hcp : Event.close ∉ pre := not_mem_of_all hopen not_open_close
        have hcq : Event.close ∉ post := not_mem_of_all hscan (by rfl)
        constructor
        · intro hno
          exact absurd (by rw [htr]; simp) hno
        · intro _
          refine ⟨hctx, ?_, pre, post, htr, not_mem_of_all hopen not_open_runDone,
            not_mem_of_all hscan (by rfl), fun i => not_mem_of_all hscan (by rfl)⟩
          rw [htr]
          simp [hcp, hcq]
      · have hcp : Event.close ∉ pre := not_mem_of_all hopen not_open_close
        have hlp : Event.logError "Error waiting for limiter" ∉ pre :=
          not_mem_of_all hopen not_open_limiter
        constructor
        · intro _
          refine ⟨?_, pre, htr, hcp, not_mem_of_all hopen not_open_runDone, ?_⟩
          · rw [htr, List.count_append, List.count_eq_zero.2 hcp]
            decide
          · intro i hi
            have hlt := hinv.events.1 i hi
            refine ⟨?_, hretd i hlt⟩
            rw [htr] at hi
            simpa using hi
        · intro hmem
          rw [htr] at hmem
          simp [hlp] at hmem

/-- Witness of `closure_on_cancellation`: the context is cancelled once both
scans were started; the run waits for them and closes the Queue. -/
theorem closure_on_cancellation_witness :
    (exec envTwo [] schedLateCancel).ctxDone = true ∧
    (exec envTwo [] schedLateCancel).trace.count Event.close = 1 ∧
    ∃ pre, (exec envTwo [] schedLateCancel).trace = pre ++ [Event.close, Event.runDone] ∧
      Event.close ∉ pre ∧ Event.runDone ∉ pre ∧
      ∀ i, Event.scanStart i ∈ (exec envTwo [] schedLateCancel).trace →
        Event.scanStart i ∈ pre ∧ Event.scanReturn i ∈ pre :=
  ⟨by decide,
    ((closure_on_cancellation envTwo [] schedLateCancel (by decide)).2 (by decide)).1
      (by decide)⟩

end ChartTracker
